import Mathlib

/-!
# Verification of the `ts_malloc` allocator (`src/my_malloc.c`, `src/my_malloc.h`)

Shallow embedding of the free-list memory allocator.

Modelling conventions, fixed once and used throughout:

* Addresses are measured in *header units* (`sizeof(Header)` bytes), as all
  pointer arithmetic in the source is performed on `Header *`.  Valid pointers
  never wrap, so addresses are plain `Nat`.
* A `Hdr` value records the three fields of the C `Header` union
  (`next`, `size`, `tid`); memory is a total function `Nat → Hdr` giving the
  field contents stored at every unit address.  The initial contents of all
  memory is the all-zero header: C static objects are zero-initialized and
  pages freshly obtained from `sbrk` are zero-filled by the OS.
* `size_t` arithmetic is 64-bit: additions that the C source performs in
  `size_t` before a division are taken `% 2^64`.  `unsigned` is 32-bit:
  `UINT_MAX = 2^32 - 1`.  `sizeof(Header)` is 24 on an LP64 platform
  (8-byte `next`, 8-byte `size`, 8-byte `tid`; the `double` alternative of
  the union does not enlarge it).
* `pthread_self()` is passed explicitly as the `self : Nat` argument of each
  operation; real thread identifiers are nonzero.
* `sbrk` is modelled by a break pointer `brk` (in units) plus a cap `limit`:
  the call fails (returns `(char *)-1`) exactly when the request would move
  the break past `limit`.  The ghost field `growthReqs` records the unit
  count of every growth request issued to the OS.
* Mutex operations order nothing in a single-threaded run and are elided;
  all runs considered here are sequential.
* The unbounded `while (1)` loops of the source are embedded as fuel-indexed
  recursion; exhausting fuel yields a distinguished `out` result meaning
  "the loop has not exited within that many iterations".
* Both public variants (`free_list`/`base` and `tls_free_list`/`tls_base`)
  operate on one arena held in the state; the static sentinel address is
  passed as `baseA` (`baseAddr` for the locked arena, `tlsBaseAddr` for a
  thread-local arena).  The sentinels live below the heap, which starts at
  `heapStart`.
-/

namespace TsMalloc

/-- The C `Header` union (`src/my_malloc.h`): `next` pointer, `size` in
header units, and the owning-thread tag `tid` used by `my_malloc.c`. -/
structure Hdr where
  next : Nat
  size : Nat
  tid  : Nat
deriving DecidableEq

/-- Memory: the header fields stored at each unit address. -/
abbrev Mem := Nat → Hdr

/-- `sizeof(Header)` in bytes on LP64. -/
def unitBytes : Nat := 24

/-- `UINT_MAX`, the initial value of the 32-bit `unsigned mindiff`. -/
def UINT_MAXn : Nat := 2 ^ 32 - 1

/-- `2^64`, the modulus of `size_t` arithmetic. -/
def SIZE_MOD : Nat := 2 ^ 64

/-- Address of the static `Header base` (locked variant's sentinel). -/
def baseAddr : Nat := 16

/-- Address of the thread-local `Header tls_base` for the thread under
consideration (nolock variant's sentinel). -/
def tlsBaseAddr : Nat := 40

/-- First unit address of the heap (initial program break). -/
def heapStart : Nat := 1000

/-- Write the `next` field of the header at address `a`. -/
def updNext (m : Mem) (a v : Nat) : Mem :=
  fun b => if b = a then { m b with next := v } else m b

/-- Write the `size` field of the header at address `a`. -/
def updSize (m : Mem) (a v : Nat) : Mem :=
  fun b => if b = a then { m b with size := v } else m b

/-- Write the `tid` field of the header at address `a`. -/
def updTid (m : Mem) (a v : Nat) : Mem :=
  fun b => if b = a then { m b with tid := v } else m b

/-- Allocator state: memory, the arena's list-entry pointer
(`free_list` / `tls_free_list`; `none` is the C `NULL` before first use),
the program break, the OS cap, and the ghost ledger of growth requests. -/
structure St where
  mem : Mem
  fl : Option Nat
  brk : Nat
  limit : Nat
  growthReqs : List Nat

/-- All-zero memory: C statics are zero-initialized and fresh `sbrk` pages
are zero-filled. -/
def mem0 : Mem := fun _ => ⟨0, 0, 0⟩

/-- Process start state: no arena yet, break at `heapStart`. -/
def st0 : St :=
  { mem := mem0, fl := none, brk := heapStart, limit := 2 ^ 64, growthReqs := [] }

/-- Unit count of a byte request (`my_malloc.c:246`):
`sunits = (n + sizeof(Header) - 1) / sizeof(Header) + 1`, the sum taken in
`size_t`.  The division result is at most `(2^64-1)/24`, so the trailing
`+ 1` cannot overflow. -/
def sunits (n : Nat) : Nat :=
  (n + unitBytes - 1) % SIZE_MOD / unitBytes + 1

/-- `processBlock` (`my_malloc.c:55-60`): carve `size` units from the high
end of the block headed at `start`.  Writes the shrunk `size` of the low
part, then only the `size` field of the new header at the high end (its
`next` and `tid` bytes are left as they were), and returns the payload
pointer one unit past the new header. -/
def processBlock (m : Mem) (start size : Nat) : Nat × Mem :=
  let m1 := updSize m start ((m start).size - size)
  let start1 := start + ((m start).size - size)
  let m2 := updSize m1 start1 size
  (start1 + 1, m2)

/-- The exit condition of the address-search loop in `insert_free_list`
(`my_malloc.c:145-146`): `toAdd` lies in the open cyclic interval between
`temp` and `temp->next`, either inside the arena span or outside it when
`temp` is the wrap point. -/
def Break (m : Mem) (toAdd temp : Nat) : Prop :=
  (temp < toAdd ∧ toAdd < (m temp).next) ∨
  ((m temp).next ≤ temp ∧ (temp < toAdd ∨ toAdd < (m temp).next))

instance (m : Mem) (toAdd temp : Nat) : Decidable (Break m toAdd temp) :=
  inferInstanceAs (Decidable ((temp < toAdd ∧ toAdd < (m temp).next) ∨
    ((m temp).next ≤ temp ∧ (temp < toAdd ∨ toAdd < (m temp).next))))

/-- The `while (1)` search of `insert_free_list` (`my_malloc.c:144-150`),
fuel-indexed: advance `temp` along `next` until `Break` holds.  `none`
means the loop has not exited within `fuel` iterations. -/
def insLoop (m : Mem) (toAdd : Nat) : Nat → Nat → Option Nat
  | 0, _ => none
  | fuel + 1, temp =>
    if Break m toAdd temp then some temp
    else insLoop m toAdd fuel ((m temp).next)

/-- `coalescing_blocks` (`my_malloc.c:164-180`): link `toAdd` after `block`,
absorbing the upper neighbour (`toAdd + toAdd->size == block->next`) and/or
letting `block` absorb `toAdd` (`toAdd == block + block->size`).  The second
test reads the fields as left by the first step, exactly as the C does.
Returns the new memory and the new list entry `*fl = block`. -/
def coalescing_blocks (m : Mem) (toAdd block : Nat) : Mem × Nat :=
  let m1 :=
    if toAdd + (m toAdd).size = (m block).next then
      updNext
        (updSize m toAdd ((m toAdd).size + (m ((m block).next)).size))
        toAdd ((m ((m block).next)).next)
    else
      updNext m toAdd ((m block).next)
  let m2 :=
    if toAdd = block + (m1 block).size then
      updNext (updSize m1 block ((m1 block).size + (m1 toAdd).size))
        block ((m1 toAdd).next)
    else
      updNext m1 block toAdd
  (m2, block)

/-- Result of `insert_free_list`: loop ran out of fuel, the free was
silently dropped by the thread-tag check, or the block was linked in
(new memory and new list entry). -/
inductive InsOut where
  | out : InsOut
  | unchanged : InsOut
  | done : Mem → Nat → InsOut

/-- `insert_free_list` (`my_malloc.c:138-152`): recover the header
`toAdd = ptr - 1`, drop the free silently when its `tid` differs from the
calling thread, otherwise search for the address-sorted position and
coalesce. -/
def insert_free_list (self ptr f : Nat) (m : Mem) (fuel : Nat) : InsOut :=
  let toAdd := ptr - 1
  if (m toAdd).tid ≠ self then .unchanged
  else
    match insLoop m toAdd fuel f with
    | none => .out
    | some temp =>
      let r := coalescing_blocks m toAdd temp
      .done r.1 r.2

/-- Result of `malloc_sys`: loop fuel exhausted during the insert, `sbrk`
failure (the C `NULL` return), or success with the updated state. -/
inductive SysOut where
  | out : SysOut
  | fail : St → SysOut
  | ok : St → SysOut

/-- `malloc_sys` (`my_malloc.c:77-97`): request `num_units` header units
from the OS — with no minimum-growth scaling, the body requests exactly
`num_units` although its comment still describes the `MIN_ALLOC` policy —
then stamp the new region's header with its size and the calling thread's
tag and feed it to `insert_free_list` (via `ts_sys_free_lock` in the locked
variant; same list operation).  The ghost ledger records the unit count of
the `sbrk` request. -/
def malloc_sys (self num_units : Nat) (fuel : Nat) (st : St) : SysOut :=
  let st1 := { st with growthReqs := st.growthReqs ++ [num_units] }
  if st.limit < st.brk + num_units then .fail st1
  else
    let ptr := st.brk
    let st2 := { st1 with brk := st.brk + num_units }
    let m1 := updTid (updSize st2.mem ptr num_units) ptr self
    match st2.fl with
    | none => .out
    | some f =>
      match insert_free_list self (ptr + 1) f m1 fuel with
      | .out => .out
      | .unchanged => .ok { st2 with mem := m1 }
      | .done m2 f2 => .ok { st2 with mem := m2, fl := some f2 }

/-- The scaled request of the `malloc_sys` variants in the other source
files (`src/unnamed/part_000:93-97`, `src/unnamed/part_001:22-26`): a
request below `MIN_ALLOC` is raised to `num_units * (MIN_ALLOC / num_units)`.
The current `my_malloc.c` body performs no such scaling. -/
def scaled_request (minAlloc num_units : Nat) : Nat :=
  if num_units < minAlloc then num_units * (minAlloc / num_units)
  else num_units

/-- `initialize_alloc` (`my_malloc.c:214-227`): first-use setup of an arena
sentinel — zero size, `next` pointing at itself, tagged with the calling
thread — and the list entry pointed at it.  Locked and thread-local
variants differ only in which static sentinel is used; the model receives
its address in `baseA`. -/
def init_alloc (self baseA : Nat) (st : St) : St :=
  let m1 := updTid (updNext (updSize st.mem baseA 0) baseA baseA) baseA self
  { st with mem := m1, fl := some baseA }

/-- Outcome of one search lap of `my_malloc`'s loop (`my_malloc.c:254-290`):
fuel ran out; an exact-size block was found at `curr` with walk predecessor
`prev` (`my_malloc.c:256-262`); a best-fit candidate `best` with predecessor
`bestPrev` survived the full lap (`my_malloc.c:264-277`); or the lap
completed with no candidate (`my_malloc.c:279-286`). -/
inductive SearchOut where
  | out : SearchOut
  | exact : Nat → Nat → SearchOut
  | carve : Nat → Nat → SearchOut
  | miss : SearchOut
deriving DecidableEq

/-- One iteration of `my_malloc`'s search loop, reading but never writing
memory (all writes of the C loop happen on its exit paths, which are
returned here as the constructors of `SearchOut`).  `mindiff` is the C
`unsigned mindiff`; it is compared and stored only while strictly below
`UINT_MAX`, so the stored value is never truncated. -/
def searchGo (m : Mem) (f su : Nat) :
    Nat → Nat → Nat → Nat → Option (Nat × Nat) → SearchOut
  | 0, _, _, _, _ => .out
  | fuel + 1, prev, curr, mindiff, best =>
    if (m curr).size = su then .exact prev curr
    else
      let s :=
        if su ≤ (m curr).size ∧ (m curr).size - su < mindiff then
          ((m curr).size - su, some (curr, prev))
        else (mindiff, best)
      if curr = f then
        match s.2 with
        | some (b, bp) => .carve b bp
        | none => .miss
      else searchGo m f su fuel curr ((m curr).next) s.1 s.2

/-- The full search lap: start with `prev = *fl`, `curr = prev->next`,
`mindiff = UINT_MAX`, no candidate (`my_malloc.c:247-253`). -/
def search (m : Mem) (f su fuel : Nat) : SearchOut :=
  searchGo m f su fuel f ((m f).next) UINT_MAXn none

/-- Result of `my_malloc`: loop fuel exhausted, the C `NULL` on OS growth
failure, or the payload pointer. -/
inductive MOut where
  | out : MOut
  | null : MOut
  | payload : Nat → MOut
deriving DecidableEq

/-- `my_malloc` (`my_malloc.c:242-291`): convert the byte request to units,
initialize the arena on first use, then search.  An exact fit is unlinked
(`prev->next = curr->next; *fl = prev`) and returned; a best-fit candidate
is served by `processBlock` after `*fl = bestPrev`; a full miss grows the
heap through `malloc_sys` and, as in the C where the loop then continues
from the fresh `*fl` with no recorded candidate, retries the search on the
new state. -/
def my_malloc (self baseA n : Nat) : Nat → St → MOut × St
  | 0, st => (.out, st)
  | fuel + 1, st =>
    let su := sunits n
    let st1 := if st.fl = none then init_alloc self baseA st else st
    match st1.fl with
    | none => (.out, st1)
    | some f =>
      match search st1.mem f su (fuel + 1) with
      | .out => (.out, st1)
      | .exact prev curr =>
        let m2 := updNext st1.mem prev ((st1.mem curr).next)
        (.payload (curr + 1), { st1 with mem := m2, fl := some prev })
      | .carve best bestPrev =>
        let st2 := { st1 with fl := some bestPrev }
        let r := processBlock st2.mem best su
        (.payload r.1, { st2 with mem := r.2 })
      | .miss =>
        match malloc_sys self su (fuel + 1) st1 with
        | .out => (.out, st1)
        | .fail stf => (.null, stf)
        | .ok st2 => my_malloc self baseA n fuel st2

/-- `ts_malloc_lock` (`my_malloc.c:40-42`): the body is the single
statement `my_malloc(size, &free_list, 1);`.  The function is declared
`void *` but contains no `return` statement, so the value computed by
`my_malloc` is discarded and the caller receives an indeterminate value
(C11 6.9.1p12).  The model therefore exposes only the state effect. -/
def ts_malloc_lock (self n fuel : Nat) (st : St) : St :=
  (my_malloc self baseAddr n fuel st).2

/-- `ts_malloc_nolock` (`my_malloc.c:189-191`): same missing-`return`
shape as `ts_malloc_lock`, over the thread-local arena. -/
def ts_malloc_nolock (self n fuel : Nat) (st : St) : St :=
  (my_malloc self tlsBaseAddr n fuel st).2

/-- Observable outcome of a free call under the model. -/
inductive FOut where
  | out : FOut
  | dropped : FOut
  | ok : FOut
deriving DecidableEq

/-- `ts_free_lock` (`my_malloc.c:107-112`): lock, `insert_free_list` on the
shared arena, unlock.  A `none` list entry corresponds to freeing before
any allocation, where the C dereferences a null list head. -/
def ts_free_lock (self p fuel : Nat) (st : St) : FOut × St :=
  match st.fl with
  | none => (.out, st)
  | some f =>
    match insert_free_list self p f st.mem fuel with
    | .out => (.out, st)
    | .unchanged => (.dropped, st)
    | .done m2 f2 => (.ok, { st with mem := m2, fl := some f2 })

/-- `ts_free_nolock` (`my_malloc.c:200-202`): `insert_free_list` on the
thread-local arena; identical list operation, no lock. -/
def ts_free_nolock (self p fuel : Nat) (st : St) : FOut × St :=
  match st.fl with
  | none => (.out, st)
  | some f =>
    match insert_free_list self p f st.mem fuel with
    | .out => (.out, st)
    | .unchanged => (.dropped, st)
    | .done m2 f2 => (.ok, { st with mem := m2, fl := some f2 })

/-- The four public operations of the interface. -/
inductive PubOp where
  | allocL : Nat → PubOp
  | freeL : Nat → PubOp
  | allocN : Nat → PubOp
  | freeN : Nat → PubOp

/-- State effect of one public operation run by thread `self`. -/
def applyOp (self fuel : Nat) : PubOp → St → St
  | .allocL n, st => ts_malloc_lock self n fuel st
  | .freeL p, st => (ts_free_lock self p fuel st).2
  | .allocN n, st => ts_malloc_nolock self n fuel st
  | .freeN p, st => (ts_free_nolock self p fuel st).2

/-! ## Well-formedness of an arena

An arena is described by the list `S` of its free-block header addresses in
ascending order.  The cyclic singly-linked structure of the C free list is
the `next` fields realizing `S` cyclically: consecutive nodes are linked
and the last (highest) node wraps to the first (lowest); the wrap pair is
the unique pair with `next ≤ node`. -/

/-- The `next` fields realize `S` as the cyclic list in ascending order. -/
def CycNext (m : Mem) (S : List Nat) : Prop :=
  S.Chain' (fun a b => (m a).next = b) ∧ (m (S.getLastD 0)).next = S.headD 0

/-- Core well-formedness of an arena, independent of the entry pointer:
`S` is a nonempty, strictly ascending list of node addresses realized
cyclically by the `next` fields; consecutive (non-wrap) free blocks are
non-contiguous (`a + a.size < b`); and every block's extent lies below the
break. -/
def WFc (m : Mem) (brk : Nat) (S : List Nat) : Prop :=
  S ≠ [] ∧ S.Chain' (· < ·) ∧ CycNext m S ∧
  S.Chain' (fun a b => a + (m a).size < b) ∧
  ∀ a ∈ S, a < brk ∧ a + (m a).size ≤ brk

/-- Well-formed arena: core well-formedness plus membership of the list
entry `f`. -/
def WF (m : Mem) (f brk : Nat) (S : List Nat) : Prop :=
  f ∈ S ∧ WFc m brk S

/-- The contract of a valid free on a well-formed arena (spec: `p` was
returned by the allocator and not yet freed): the freed header has a
positive unit count, it is not itself a free-list node, it lies above the
arena's lowest node (the sentinel), its extent stays below the break, and
it does not overlap any free block's extent. -/
def FreeOK (m : Mem) (brk : Nat) (S : List Nat) (toAdd : Nat) : Prop :=
  1 ≤ (m toAdd).size ∧ toAdd ∉ S ∧ S.headD 0 < toAdd ∧
  toAdd + (m toAdd).size ≤ brk ∧
  ∀ a ∈ S, toAdd + (m toAdd).size ≤ a ∨ a + (m a).size ≤ toAdd

instance (m : Mem) (S : List Nat) : Decidable (CycNext m S) :=
  inferInstanceAs (Decidable (S.Chain' (fun a b => (m a).next = b) ∧
    (m (S.getLastD 0)).next = S.headD 0))

instance (m : Mem) (brk : Nat) (S : List Nat) : Decidable (WFc m brk S) :=
  inferInstanceAs (Decidable (S ≠ [] ∧ S.Chain' (· < ·) ∧ CycNext m S ∧
    S.Chain' (fun a b => a + (m a).size < b) ∧
    ∀ a ∈ S, a < brk ∧ a + (m a).size ≤ brk))

instance (m : Mem) (f brk : Nat) (S : List Nat) : Decidable (WF m f brk S) :=
  inferInstanceAs (Decidable (f ∈ S ∧ WFc m brk S))

instance (m : Mem) (brk : Nat) (S : List Nat) (toAdd : Nat) :
    Decidable (FreeOK m brk S toAdd) :=
  inferInstanceAs (Decidable (1 ≤ (m toAdd).size ∧ toAdd ∉ S ∧
    S.headD 0 < toAdd ∧ toAdd + (m toAdd).size ≤ brk ∧
    ∀ a ∈ S, toAdd + (m toAdd).size ≤ a ∨ a + (m a).size ≤ toAdd))

/-- The precondition of a public operation on an arena described by `S`:
allocations are unconditional; a free whose header carries the calling
thread's tag (the only case in which `insert_free_list` mutates the
arena) must be freeing a valid allocated block. -/
def OpOK (self : Nat) (st : St) (S : List Nat) : PubOp → Prop
  | .allocL _ => True
  | .allocN _ => True
  | .freeL p => (st.mem (p - 1)).tid = self → FreeOK st.mem st.brk S (p - 1)
  | .freeN p => (st.mem (p - 1)).tid = self → FreeOK st.mem st.brk S (p - 1)

/-- A two-node arena with a carved block at `1003` ready to be freed. -/
def memW : Mem := fun a =>
  if a = 16 then ⟨1000, 0, 1⟩
  else if a = 1000 then ⟨16, 2, 1⟩
  else if a = 1003 then ⟨0, 2, 1⟩
  else ⟨0, 0, 0⟩

/-- The state holding `memW` with the arena entered at the sentinel. -/
def stW : St := ⟨memW, some 16, 1005, 2000, []⟩

/-! ## Concrete runs used to settle individual claims -/

/-- Thread 1's state after `ts_malloc_nolock(24)` from process start: the
heap grew by one 2-unit block at `heapStart` which was handed out whole
(payload `1001`). -/
def c2st1 : St := ts_malloc_nolock 1 24 5 st0

/-- ... after `ts_free_nolock(1001)` on the same thread: the 2-unit block
is back in the thread-local arena. -/
def c2st2 : St := (ts_free_nolock 1 1001 5 c2st1).2

/-- ... after `ts_malloc_nolock(0)` on the same thread: one unit is carved
from the high end of the free 2-unit block; the outgoing header sits at
`1001` (payload `1002`) and `processBlock` wrote only its `size` field. -/
def c2st3 : St := ts_malloc_nolock 1 0 5 c2st2

/-- Shared-arena state after thread 1 runs `ts_malloc_lock(24)` from
process start: the fresh 2-unit block at `heapStart` was handed out whole
(payload `1001`) and its header carries `tid = 1`. -/
def c3st1 : St := ts_malloc_lock 1 24 5 st0

/-- An arena for the best-fit claims: the sentinel at `baseAddr` and one
free block at `heapStart` of `2 + 2^32` units, so that its excess over a
2-unit request equals `2^32`, which is not below `UINT_MAX`.  The break
sits five units past the block's end, so fresh OS memory does not coalesce
with it. -/
def memC5 : Mem := fun a =>
  if a = baseAddr then ⟨heapStart, 0, 1⟩
  else if a = heapStart then ⟨baseAddr, 2 + 2 ^ 32, 1⟩
  else ⟨0, 0, 0⟩

/-- State holding the `memC5` arena. -/
def stC5 : St :=
  { mem := memC5, fl := some baseAddr, brk := 2 ^ 32 + 1007, limit := 2 ^ 64,
    growthReqs := [] }

/-- An arena exercising the carve path: the sentinel plus one free
3-unit block, against a 2-unit request. -/
def memC7 : Mem := fun a =>
  if a = baseAddr then ⟨heapStart, 0, 1⟩
  else if a = heapStart then ⟨baseAddr, 3, 1⟩
  else ⟨0, 0, 0⟩

/-- State holding the `memC7` arena. -/
def stC7 : St :=
  { mem := memC7, fl := some baseAddr, brk := 1003, limit := 2 ^ 64,
    growthReqs := [] }

/-- A best-fit tie arena: the sentinel plus two free 3-unit blocks at
`1000` and `1004`.  Against a 2-unit request both fit equally well; the
walk from one past the head meets `1000` first. -/
def memC5b : Mem := fun a =>
  if a = baseAddr then ⟨1000, 0, 1⟩
  else if a = 1000 then ⟨1004, 3, 1⟩
  else if a = 1004 then ⟨baseAddr, 3, 1⟩
  else ⟨0, 0, 0⟩

/-- Memory right after first-use initialization of the locked arena from
process start: only the sentinel has been written. -/
def memInit : Mem := fun a => if a = baseAddr then ⟨baseAddr, 0, 1⟩ else ⟨0, 0, 0⟩

/-- The initialized fresh state of the locked arena. -/
def stInit : St :=
  { mem := memInit, fl := some baseAddr, brk := heapStart, limit := 2 ^ 64,
    growthReqs := [] }

/-- Memory after `malloc_sys` wrote the header of the fresh `su`-unit block
at `heapStart` (size and thread tag); the insert has not yet linked it. -/
def memStamp (su : Nat) : Mem := fun a =>
  if a = baseAddr then ⟨baseAddr, 0, 1⟩
  else if a = heapStart then ⟨0, su, 1⟩
  else ⟨0, 0, 0⟩

/-- Memory after the fresh block was linked into the arena behind the
sentinel. -/
def memGrown (su : Nat) : Mem := fun a =>
  if a = baseAddr then ⟨heapStart, 0, 1⟩
  else if a = heapStart then ⟨baseAddr, su, 1⟩
  else ⟨0, 0, 0⟩

/-- State after the first OS growth of `su` units on a fresh locked arena. -/
def stGrown (su : Nat) : St :=
  { mem := memGrown su, fl := some baseAddr, brk := heapStart + su,
    limit := 2 ^ 64, growthReqs := [su] }

/-- Memory after the grown block was unlinked again as an exact fit: the
sentinel loops to itself, the block header at `heapStart` keeps its size. -/
def memServed (su : Nat) : Mem := fun a =>
  if a = baseAddr then ⟨baseAddr, 0, 1⟩
  else if a = heapStart then ⟨baseAddr, su, 1⟩
  else ⟨0, 0, 0⟩

/-- Final state of the first allocation from process start. -/
def stServed (su : Nat) : St :=
  { mem := memServed su, fl := some baseAddr, brk := heapStart + su,
    limit := 2 ^ 64, growthReqs := [su] }

/-! ## Theorems -/

/-! ### Pointwise evaluation of memory writes, and step lemmas -/

theorem updSize_apply (m : Mem) (a v b : Nat) :
    updSize m a v b = if b = a then { m b with size := v } else m b := rfl

theorem updNext_apply (m : Mem) (a v b : Nat) :
    updNext m a v b = if b = a then { m b with next := v } else m b := rfl

theorem updTid_apply (m : Mem) (a v b : Nat) :
    updTid m a v b = if b = a then { m b with tid := v } else m b := rfl

theorem mem0_apply (b : Nat) : mem0 b = ⟨0, 0, 0⟩ := rfl

/-- Unit counts are always positive: the conversion ends in `+ 1`. -/
theorem sunits_pos (n : Nat) : 1 ≤ sunits n := Nat.le_add_left 1 _

/-- Unit counts are bounded: the wrapped sum is below `2^64` and is divided
by `24`. -/
theorem sunits_le (n : Nat) : sunits n ≤ 2 ^ 63 := by
  unfold sunits SIZE_MOD unitBytes
  have h : (n + 24 - 1) % 2 ^ 64 < 2 ^ 64 := Nat.mod_lt _ (by norm_num)
  omega

/-- Contents of `memInit` at the sentinel. -/
theorem memInit_base : memInit baseAddr = ⟨baseAddr, 0, 1⟩ := rfl

/-- Contents of `memStamp` at the sentinel. -/
theorem memStamp_base (su : Nat) : memStamp su baseAddr = ⟨baseAddr, 0, 1⟩ := rfl

/-- Contents of `memStamp` at the fresh block. -/
theorem memStamp_heap (su : Nat) : memStamp su heapStart = ⟨0, su, 1⟩ := rfl

/-- Contents of `memGrown` at the sentinel. -/
theorem memGrown_base (su : Nat) : memGrown su baseAddr = ⟨heapStart, 0, 1⟩ := rfl

/-- Contents of `memGrown` at the fresh block. -/
theorem memGrown_heap (su : Nat) : memGrown su heapStart = ⟨baseAddr, su, 1⟩ := rfl

/-- Contents of `memServed` at the served block. -/
theorem memServed_heap (su : Nat) : memServed su heapStart = ⟨baseAddr, su, 1⟩ := rfl

/-- Componentwise equality of allocator states. -/
theorem St_eq (m1 m2 : Mem) (f1 f2 : Option Nat) (b1 b2 l1 l2 : Nat)
    (g1 g2 : List Nat) (hm : m1 = m2) (hf : f1 = f2) (hb : b1 = b2)
    (hl : l1 = l2) (hg : g1 = g2) :
    St.mk m1 f1 b1 l1 g1 = St.mk m2 f2 b2 l2 g2 := by
  rw [hm, hf, hb, hl, hg]

/-- A first-use call initializes the arena and proceeds identically to a
call on the initialized state. -/
theorem my_malloc_of_none (self baseA n fuel : Nat) (st : St)
    (h : st.fl = none) :
    my_malloc self baseA n (fuel + 1) st =
      my_malloc self baseA n (fuel + 1) (init_alloc self baseA st) := by
  simp only [my_malloc]
  rw [h]
  simp [init_alloc]

/-- Step lemma: the search found an exact fit, which is unlinked and
returned (`my_malloc.c:256-262`). -/
theorem my_malloc_exact_step (self baseA n fuel : Nat) (st : St) (f prev curr : Nat)
    (hf : st.fl = some f)
    (hs : search st.mem f (sunits n) (fuel + 1) = .exact prev curr) :
    my_malloc self baseA n (fuel + 1) st =
      (.payload (curr + 1),
        { st with mem := updNext st.mem prev ((st.mem curr).next),
                  fl := some prev }) := by
  simp only [my_malloc]
  simp [hf, hs]

/-- Step lemma: the search kept a best-fit candidate, which is carved by
`processBlock` after `*fl = bestPrev` (`my_malloc.c:270-277`). -/
theorem my_malloc_carve_step (self baseA n fuel : Nat) (st : St) (f b bp : Nat)
    (hf : st.fl = some f)
    (hs : search st.mem f (sunits n) (fuel + 1) = .carve b bp) :
    my_malloc self baseA n (fuel + 1) st =
      (.payload (processBlock st.mem b (sunits n)).1,
        { st with mem := (processBlock st.mem b (sunits n)).2,
                  fl := some bp }) := by
  simp only [my_malloc]
  simp [hf, hs]

/-- Step lemma: the lap missed and OS growth succeeded; the loop continues
on the grown state with no recorded candidate, i.e. as a fresh search
(`my_malloc.c:279-290`). -/
theorem my_malloc_miss_step (self baseA n fuel : Nat) (st st2 : St) (f : Nat)
    (hf : st.fl = some f)
    (hs : search st.mem f (sunits n) (fuel + 1) = .miss)
    (hg : malloc_sys self (sunits n) (fuel + 1) st = .ok st2) :
    my_malloc self baseA n (fuel + 1) st = my_malloc self baseA n fuel st2 := by
  simp only [my_malloc]
  simp [hf, hs, hg]

/-- Step lemma: the lap missed and the OS refused to grow: `my_malloc`
returns the C `NULL` (`my_malloc.c:280-285`). -/
theorem my_malloc_fail_step (self baseA n fuel : Nat) (st stf : St) (f : Nat)
    (hf : st.fl = some f)
    (hs : search st.mem f (sunits n) (fuel + 1) = .miss)
    (hg : malloc_sys self (sunits n) (fuel + 1) st = .fail stf) :
    my_malloc self baseA n (fuel + 1) st = (.null, stf) := by
  simp only [my_malloc]
  simp [hf, hs, hg]

/-- Definitional unfolding of one iteration of the search loop. -/
theorem searchGo_unfold (m : Mem) (f su fuel prev curr mind : Nat)
    (best : Option (Nat × Nat)) :
    searchGo m f su (fuel + 1) prev curr mind best =
      if (m curr).size = su then .exact prev curr
      else
        let s :=
          if su ≤ (m curr).size ∧ (m curr).size - su < mind then
            ((m curr).size - su, some (curr, prev))
          else (mind, best)
        if curr = f then
          match s.2 with
          | some (b, bp) => .carve b bp
          | none => .miss
        else searchGo m f su fuel curr ((m curr).next) s.1 s.2 := rfl

/-- Search-loop iteration hitting an exact fit. -/
theorem searchGo_exact (m : Mem) (f su fuel prev curr mind : Nat)
    (best : Option (Nat × Nat)) (h : (m curr).size = su) :
    searchGo m f su (fuel + 1) prev curr mind best = .exact prev curr := by
  rw [searchGo_unfold, if_pos h]

/-- Search-loop iteration that continues the walk, possibly updating the
best-fit candidate. -/
theorem searchGo_cont (m : Mem) (f su fuel prev curr mind : Nat)
    (best : Option (Nat × Nat)) (hne : (m curr).size ≠ su) (hf : curr ≠ f) :
    searchGo m f su (fuel + 1) prev curr mind best =
      if su ≤ (m curr).size ∧ (m curr).size - su < mind then
        searchGo m f su fuel curr ((m curr).next) ((m curr).size - su)
          (some (curr, prev))
      else searchGo m f su fuel curr ((m curr).next) mind best := by
  rw [searchGo_unfold, if_neg hne]
  by_cases hc : su ≤ (m curr).size ∧ (m curr).size - su < mind <;>
    simp [hc, hf]

/-- Search-loop iteration processing the head node, which ends the lap:
the recorded candidate (if any) decides between carving and a miss. -/
theorem searchGo_last (m : Mem) (f su fuel prev mind : Nat)
    (best : Option (Nat × Nat)) (hne : (m f).size ≠ su) :
    searchGo m f su (fuel + 1) prev f mind best =
      (match
        (if su ≤ (m f).size ∧ (m f).size - su < mind then some (f, prev)
         else best) with
      | some (b, bp) => SearchOut.carve b bp
      | none => SearchOut.miss) := by
  rw [searchGo_unfold, if_neg hne]
  by_cases hc : su ≤ (m f).size ∧ (m f).size - su < mind <;> simp [hc]

/-- One iteration of the insert-position loop that does not exit. -/
theorem insLoop_step (m : Mem) (toAdd fuel temp : Nat) (h : ¬ Break m toAdd temp) :
    insLoop m toAdd (fuel + 1) temp = insLoop m toAdd fuel ((m temp).next) := by
  rw [show insLoop m toAdd (fuel + 1) temp =
      if Break m toAdd temp then some temp
      else insLoop m toAdd fuel ((m temp).next) from rfl, if_neg h]

/-- One iteration of the insert-position loop that exits. -/
theorem insLoop_break (m : Mem) (toAdd fuel temp : Nat) (h : Break m toAdd temp) :
    insLoop m toAdd (fuel + 1) temp = some temp := by
  rw [show insLoop m toAdd (fuel + 1) temp =
      if Break m toAdd temp then some temp
      else insLoop m toAdd fuel ((m temp).next) from rfl, if_pos h]

/-- First-use initialization from process start yields `stInit`. -/
theorem init_fresh : init_alloc 1 baseAddr st0 = stInit := by
  show St.mk _ _ _ _ _ = _
  unfold stInit
  refine St_eq _ _ _ _ _ _ _ _ _ _ ?_ rfl rfl rfl rfl
  funext b
  by_cases hb : b = 16 <;>
    simp [st0, updSize_apply, updNext_apply, updTid_apply, mem0_apply, memInit,
      baseAddr, hb]

/-- On the freshly initialized arena (sentinel only), any positive
request misses: the sentinel has size zero. -/
theorem search_fresh (su fuel : Nat) (h1 : 1 ≤ su) :
    search memInit baseAddr su (fuel + 1) = .miss := by
  unfold search
  rw [memInit_base]
  have hne : (memInit baseAddr).size ≠ su := by rw [memInit_base]; simp; omega
  have hno : ¬ (su ≤ (memInit baseAddr).size ∧
      (memInit baseAddr).size - su < UINT_MAXn) := by
    rw [memInit_base]; simp; omega
  rw [searchGo_last _ _ _ _ _ _ _ hne, if_neg hno]

/-- Coalescing the stamped fresh block behind the sentinel: no neighbour
is adjacent, so the block is simply linked in. -/
theorem coalesce_fresh (su : Nat) (h1 : 1 ≤ su) :
    coalescing_blocks (memStamp su) heapStart baseAddr =
      (memGrown su, baseAddr) := by
  unfold coalescing_blocks
  have e1 : ¬ (heapStart + (memStamp su heapStart).size =
      (memStamp su baseAddr).next) := by
    rw [memStamp_heap, memStamp_base]
    show ¬ (heapStart + su = baseAddr)
    unfold heapStart baseAddr; omega
  rw [if_neg e1]
  simp only []
  have e2 : ¬ (heapStart = baseAddr +
      (updNext (memStamp su) heapStart ((memStamp su baseAddr).next)
        baseAddr).size) := by
    rw [updNext_apply]
    simp [memStamp_base, heapStart, baseAddr, memStamp]
  rw [if_neg e2]
  refine Prod.ext ?_ rfl
  funext b
  by_cases hb1 : b = 16
  · simp [updNext_apply, memStamp, memGrown, heapStart, baseAddr, hb1]
  · by_cases hb2 : b = 1000 <;>
      simp [updNext_apply, memStamp, memGrown, heapStart, baseAddr, hb1, hb2]

/-- Inserting the fresh grown block into the one-sentinel arena links it
behind the sentinel. -/
theorem insert_fresh (su fuel : Nat) (h1 : 1 ≤ su) :
    insert_free_list 1 (heapStart + 1) baseAddr (memStamp su) (fuel + 1) =
      .done (memGrown su) baseAddr := by
  unfold insert_free_list
  simp only [Nat.add_sub_cancel]
  rw [if_neg (by rw [memStamp_heap]; simp)]
  have hb : Break (memStamp su) heapStart baseAddr := by
    unfold Break
    rw [memStamp_base]
    right
    exact ⟨le_refl _, Or.inl (by unfold heapStart baseAddr; omega)⟩
  rw [insLoop_break _ _ _ _ hb]
  simp [coalesce_fresh su h1]

/-- The first OS growth on a fresh arena: `sbrk` succeeds, the block is
stamped and linked, the ledger records the request. -/
theorem sys_fresh (su fuel : Nat) (h1 : 1 ≤ su) (h2 : su ≤ 2 ^ 63) :
    malloc_sys 1 su (fuel + 1) stInit = .ok (stGrown su) := by
  unfold malloc_sys
  have hlim : ¬ (stInit.limit < stInit.brk + su) := by
    show ¬ ((2:Nat) ^ 64 < heapStart + su)
    unfold heapStart; omega
  rw [if_neg hlim]
  have hm : updTid (updSize stInit.mem stInit.brk su) stInit.brk 1 =
      memStamp su := by
    funext b
    by_cases hb1 : b = 16
    · simp [updSize_apply, updTid_apply, stInit, memInit, memStamp, heapStart,
        baseAddr, hb1]
    · by_cases hb2 : b = 1000 <;>
        simp [updSize_apply, updTid_apply, stInit, memInit, memStamp, heapStart,
          baseAddr, hb1, hb2]
  simp only []
  rw [hm]
  rw [show stInit.fl = some baseAddr from rfl]
  simp only []
  rw [show stInit.brk = heapStart from rfl, insert_fresh su fuel h1]
  simp only []
  unfold stGrown
  congr 1

/-- The retry after the first growth finds the fresh block as an exact
fit. -/
theorem search_grown (su fuel : Nat) :
    search (memGrown su) baseAddr su (fuel + 1) = .exact baseAddr heapStart := by
  unfold search
  rw [memGrown_base]
  exact searchGo_exact _ _ _ _ _ _ _ _ (by rw [memGrown_heap])

/-- The first allocation from process start, for an arbitrary byte count:
one OS growth of exactly `sunits n` units and an exact-fit return of the
fresh block, whose header keeps size `sunits n`. -/
theorem my_malloc_fresh (n : Nat) :
    my_malloc 1 baseAddr n 5 st0 = (.payload (heapStart + 1), stServed (sunits n)) := by
  have h1 := sunits_pos n
  have h2 := sunits_le n
  rw [show (5:Nat) = 4 + 1 from rfl, my_malloc_of_none 1 baseAddr n 4 st0 rfl,
    init_fresh]
  rw [my_malloc_miss_step 1 baseAddr n 4 stInit (stGrown (sunits n)) baseAddr rfl
    (search_fresh (sunits n) 4 h1) (sys_fresh (sunits n) 4 h1 h2)]
  rw [show (4:Nat) = 3 + 1 from rfl,
    my_malloc_exact_step 1 baseAddr n 3 (stGrown (sunits n)) baseAddr baseAddr
      heapStart rfl (search_grown (sunits n) 3)]
  refine Prod.ext rfl ?_
  show St.mk _ _ _ _ _ = _
  unfold stServed
  refine St_eq _ _ _ _ _ _ _ _ _ _ ?_ rfl rfl rfl rfl
  funext b
  by_cases hb1 : b = 16
  · simp [updNext_apply, stGrown, memGrown, memServed, heapStart, baseAddr, hb1]
  · by_cases hb2 : b = 1000 <;>
      simp [updNext_apply, stGrown, memGrown, memServed, heapStart, baseAddr, hb1, hb2]

/-- Claim C1: on the first locked and nolock allocation of 8 bytes the
inner allocator `my_malloc` computes the non-null payload pointer `1001`,
but the entry points `ts_malloc_lock` / `ts_malloc_nolock` — whose bodies
consist of the bare statement `my_malloc(...);` with no `return` — discard
it: the model can expose only their state effect.  This exhibits, at the
concrete input `n = 8`, the value the claim requires the entry points to
return. -/
theorem c1_entry_discards_inner_result :
    (my_malloc 1 baseAddr 8 5 st0).1 = MOut.payload 1001 ∧
    (my_malloc 1 tlsBaseAddr 8 5 st0).1 = MOut.payload 1001 ∧
    MOut.payload 1001 ≠ MOut.null ∧
    ts_malloc_lock 1 8 5 st0 = (my_malloc 1 baseAddr 8 5 st0).2 ∧
    ts_malloc_nolock 1 8 5 st0 = (my_malloc 1 tlsBaseAddr 8 5 st0).2 :=
  ⟨by decide, by decide, by decide, rfl, rfl⟩

/-- Claim C2: thread 1 allocates 24 bytes, frees the result, allocates 0
bytes — which carves one unit from the high end of the free block, and
`processBlock` leaves the carved header's `tid` bytes as the zero-filled
fresh page had them — and then frees that second pointer on the very same
thread.  The tag check `toAdd->tid != pthread_self()` sees `0 ≠ 1` and the
free is silently discarded, leaving the arena unchanged, although the
claim requires insertion for a free on the allocating thread. -/
theorem c2_same_thread_free_dropped :
    (my_malloc 1 tlsBaseAddr 0 5 c2st2).1 = MOut.payload 1002 ∧
    (c2st3.mem 1001).size = 1 ∧
    (c2st3.mem 1001).tid = 0 ∧
    (ts_free_nolock 1 1002 5 c2st3).1 = FOut.dropped ∧
    (ts_free_nolock 1 1002 5 c2st3).2 = c2st3 :=
  ⟨by decide, by decide, by decide, by decide, rfl⟩

/-- Claim C3: thread 1 obtains payload `1001` from `ts_malloc_lock(24)`
(the block's header carries `tid = 1`), and thread 2 calls
`ts_free_lock(1001)`.  Because `insert_free_list` applies its thread-tag
guard to the locked variant as well, the cross-thread free is silently
discarded and the shared arena is left unchanged, although the claim
requires insertion from any thread. -/
theorem c3_cross_thread_free_lock_dropped :
    (my_malloc 1 baseAddr 24 5 st0).1 = MOut.payload 1001 ∧
    ((c3st1.mem 1000).tid = 1) ∧
    (ts_free_lock 2 1001 5 c3st1).1 = FOut.dropped ∧
    (ts_free_lock 2 1001 5 c3st1).2 = c3st1 :=
  ⟨by decide, by decide, by decide, rfl⟩

/-- Claim C4: the first `alloc(8)` under the locked variant converts to
`sunits 8 = 2` units and `malloc_sys` issues exactly one OS growth request
of exactly `2` units — the `my_malloc.c` body performs no `MIN_ALLOC`
scaling, although its own comment documents that policy and the earlier
variants request `scaled_request MIN_ALLOC u = u * (MIN_ALLOC / u)` units
(`1024` for `u = 2` with the page-friendly `MIN_ALLOC = 1024`).  The inner
result is a non-null payload. -/
theorem c4_no_min_alloc_scaling :
    (ts_malloc_lock 1 8 5 st0).growthReqs = [2] ∧
    (my_malloc 1 baseAddr 8 5 st0).1 = MOut.payload 1001 ∧
    sunits 8 = 2 ∧
    scaled_request 1024 2 = 1024 ∧
    (2 : Nat) < 1024 ∧ (2 : Nat) ≠ 1024 :=
  ⟨by decide, by decide, by decide, by decide, by decide, by decide⟩

/-- Claim C5, counterexample: `stC5`'s arena contains a free block at
`heapStart` of `2 + 2^32` units, which fits the request `sunits 24 = 2`;
the claim says that block (the minimal — indeed only — sufficient size) is
chosen.  Instead, because its excess `2^32` is not strictly below the
32-bit `mindiff = UINT_MAX`, the search records no candidate, OS growth is
invoked (ledger `[2]`), and the returned payload `2^32 + 1008` comes from
the fresh region, whose header has size `2 ≠ 2 + 2^32`; the fitting block
is left untouched. -/
theorem c5_huge_excess_block_ignored :
    (my_malloc 1 baseAddr 24 5 stC5).1 = MOut.payload (2 ^ 32 + 1008) ∧
    ((my_malloc 1 baseAddr 24 5 stC5).2.mem heapStart).size = 2 + 2 ^ 32 ∧
    (my_malloc 1 baseAddr 24 5 stC5).2.growthReqs = [2] ∧
    ((my_malloc 1 baseAddr 24 5 stC5).2.mem (2 ^ 32 + 1007)).size = 2 ∧
    sunits 24 = 2 ∧ (2 : Nat) + 2 ^ 32 ≠ 2 :=
  ⟨by decide, by decide, by decide, by decide, by decide, by decide⟩

/-- Claim C6, counterexample: a zero-byte request converts to
`sunits 0 = 1` unit, and the block handed out by the first
`ts_malloc_lock(0)` from process start indeed has a 1-unit header-only
size — one unit in total, not the two units (header plus one payload unit)
the claim states. -/
theorem c6_zero_request_single_unit :
    sunits 0 = 1 ∧
    ((ts_malloc_lock 1 0 5 st0).mem 1000).size = 1 ∧
    (1 : Nat) ≠ 2 :=
  ⟨by decide, by decide, by decide⟩

/-- Claim C9, counterexample: for `n = 2^64 - 1` the `size_t` sum
`n + 23` wraps to `22`, so `sunits n = 1`, and the allocation on a fresh
arena proceeds normally and returns the non-null payload `1001` instead of
rejecting the overflowing request with null. -/
theorem c9_overflow_not_rejected :
    sunits (2 ^ 64 - 1) = 1 ∧
    (my_malloc 1 baseAddr (2 ^ 64 - 1) 5 st0).1 = MOut.payload 1001 ∧
    MOut.payload 1001 ≠ MOut.null :=
  ⟨by decide, by decide, by decide⟩

/-- Claim C6 (amended): the unit count used by the allocator is
`((n + unit - 1) mod 2^64) / unit + 1` with `unit = sizeof(Header)` — the
`size_t` sum wraps — and a request of zero bytes allocates exactly ONE unit
in total (the header alone, no payload unit).  Behaviourally: the block
handed out by the first `ts_malloc_lock(n)` from process start carries
exactly that unit count in its header, for every `n`. -/
theorem c6_amended_unit_count (n : Nat) :
    ((ts_malloc_lock 1 n 5 st0).mem heapStart).size = sunits n ∧
    sunits n = (n + unitBytes - 1) % SIZE_MOD / unitBytes + 1 ∧
    sunits 0 = 1 := by
  refine ⟨?_, rfl, rfl⟩
  show ((my_malloc 1 baseAddr n 5 st0).2.mem heapStart).size = sunits n
  rw [my_malloc_fresh n]
  show (memServed (sunits n) heapStart).size = sunits n
  rw [memServed_heap]

/-- Claim C9 (amended): a byte request whose unit computation overflows
`size_t` is NOT rejected: the sum wraps modulo `2^64`, the resulting
(small) unit count is allocated normally, and the allocation returns a
non-null payload. -/
theorem c9_amended_wraparound (n : Nat) (h : SIZE_MOD ≤ n + unitBytes - 1) :
    (my_malloc 1 baseAddr n 5 st0).1 = MOut.payload (heapStart + 1) ∧
    ((my_malloc 1 baseAddr n 5 st0).2.mem heapStart).size =
      (n + unitBytes - 1) % SIZE_MOD / unitBytes + 1 ∧
    (my_malloc 1 baseAddr n 5 st0).1 ≠ MOut.null := by
  rw [my_malloc_fresh n]
  refine ⟨rfl, ?_, by simp⟩
  rw [show (stServed (sunits n)).mem = memServed (sunits n) from rfl,
    memServed_heap]
  rfl

/-- Witness for the amended C9 at the concrete overflowing request
`n = 2^64 - 1`. -/
theorem c9_amended_wraparound_witness :
    SIZE_MOD ≤ 2 ^ 64 - 1 + unitBytes - 1 ∧
    (my_malloc 1 baseAddr (2 ^ 64 - 1) 5 st0).1 ≠ MOut.null :=
  ⟨by decide, (c9_amended_wraparound (2 ^ 64 - 1) (by decide)).2.2⟩

/-- A strictly ascending chain is pairwise ascending. -/
theorem sorted_pairwise {S : List Nat} (h : S.Chain' (· < ·)) :
    S.Pairwise (· < ·) := List.chain'_iff_pairwise.mp h

/-- The head of a nonempty list is a member. -/
theorem headD_mem {S : List Nat} (h : S ≠ []) : S.headD 0 ∈ S := by
  cases S with
  | nil => simp at h
  | cons s ss => simp

/-- The last element of a nonempty list is a member. -/
theorem getLastD_mem {S : List Nat} (h : S ≠ []) : S.getLastD 0 ∈ S := by
  induction S with
  | nil => simp at h
  | cons s ss ih =>
    cases hss : ss with
    | nil => simp [hss]
    | cons t ts =>
      subst hss
      have h2 := ih (by simp)
      simp only [List.getLastD_cons] at h2 ⊢
      exact List.mem_cons_of_mem s h2

/-- The last element of an append with nonempty right part. -/
theorem getLastD_append_ne (X Y : List Nat) (h : Y ≠ []) :
    (X ++ Y).getLastD 0 = Y.getLastD 0 := by
  rw [List.getLastD_eq_getLast?, List.getLastD_eq_getLast?,
    List.getLast?_append_of_ne_nil X h]

/-- In a cyclically realized list, a node with a successor points at it. -/
theorem cycNext_pair {m : Mem} {S X Y : List Nat} {a y : Nat}
    (hc : CycNext m S) (hS : S = X ++ a :: y :: Y) : (m a).next = y := by
  have h1 := hc.1
  rw [hS, List.chain'_append_cons_cons] at h1
  exact h1.2.1

/-- In a cyclically realized list, the last node wraps to the head. -/
theorem cycNext_last {m : Mem} {S X : List Nat} {a : Nat}
    (hc : CycNext m S) (hS : S = X ++ [a]) : (m a).next = S.headD 0 := by
  have h2 := hc.2
  rw [hS, List.getLastD_concat] at h2
  rw [hS]
  exact h2

/-- Following `next` from a member stays within the list. -/
theorem cycNext_mem {m : Mem} {S : List Nat} (hc : CycNext m S) {a : Nat}
    (ha : a ∈ S) : (m a).next ∈ S := by
  obtain ⟨X, Y, hS⟩ := List.append_of_mem ha
  cases Y with
  | nil =>
    rw [cycNext_last hc hS]
    exact headD_mem (by rw [hS]; simp)
  | cons y Y' =>
    rw [cycNext_pair hc hS, hS]
    simp

/-- The head of a sorted list is its minimum. -/
theorem sorted_head_le {S : List Nat} (h : S.Chain' (· < ·)) {a : Nat}
    (ha : a ∈ S) : S.headD 0 ≤ a := by
  cases S with
  | nil => simp at ha
  | cons s ss =>
    rcases List.mem_cons.mp ha with h1 | h1
    · simp [h1]
    · have := (List.pairwise_cons.mp (sorted_pairwise h)).1 a h1
      simp only [List.headD_cons]
      omega

/-- The last element of a sorted list is its maximum. -/
theorem sorted_le_last {S : List Nat} (h : S.Chain' (· < ·)) {a : Nat}
    (ha : a ∈ S) : a ≤ S.getLastD 0 := by
  obtain ⟨X, Y, hS⟩ := List.append_of_mem ha
  cases hY : Y with
  | nil =>
    rw [hS, hY, List.getLastD_concat]
  | cons y Y' =>
    have hp := sorted_pairwise h
    rw [hS, hY] at hp
    have hlast : S.getLastD 0 = (y :: Y').getLastD 0 := by
      rw [hS, hY, show X ++ a :: y :: Y' = (X ++ [a]) ++ (y :: Y') by simp,
        getLastD_append_ne _ _ (by simp)]
    have hmem : (y :: Y').getLastD 0 ∈ y :: Y' := getLastD_mem (by simp)
    have hp2 := (List.pairwise_append.mp hp).2.1
    have hlt := (List.pairwise_cons.mp hp2).1 _ hmem
    omega

/-- `getLast?` of a nonempty list. -/
theorem getLast?_eq_some {S : List Nat} (h : S ≠ []) :
    S.getLast? = some (S.getLastD 0) := by
  cases hq : S.getLast? with
  | none => exact absurd (List.getLast?_eq_none_iff.mp hq) h
  | some v => rw [List.getLastD_eq_getLast?, hq]; rfl

/-- Head of an append with cons left part. -/
theorem headD_append_cons (C : List Nat) (c : Nat) (C' : List Nat) :
    ((c :: C') ++ C).headD 0 = c := rfl

/-- Under a sorted cyclic arena, the break condition fails at every node
when the freed address is itself a node of the list. -/
theorem no_break_of_mem {m : Mem} {S : List Nat}
    (hsort : S.Chain' (· < ·)) (hcyc : CycNext m S) {x : Nat} (hx : x ∈ S) :
    ∀ t ∈ S, ¬ Break m x t := by
  intro t ht hbrk
  obtain ⟨X, Y, hS⟩ := List.append_of_mem ht
  have hhead : S.headD 0 ≤ x := sorted_head_le hsort hx
  have hlastx : x ≤ S.getLastD 0 := sorted_le_last hsort hx
  cases hY : Y with
  | nil =>
    subst hY
    have hnext : (m t).next = S.headD 0 := cycNext_last hcyc hS
    have hlt : t = S.getLastD 0 := by rw [hS, List.getLastD_concat]
    unfold Break at hbrk
    rw [hnext] at hbrk
    omega
  | cons y Y' =>
    subst hY
    have hnext : (m t).next = y := cycNext_pair hcyc hS
    have hp := sorted_pairwise hsort
    rw [hS] at hp
    have hty : t < y := by
      have := (List.pairwise_append.mp hp).2.1
      exact (List.pairwise_cons.mp this).1 y (by simp)
    have hxpos : x < t ∨ x = t ∨ x = y ∨ y < x := by
      rw [hS] at hx
      rcases List.mem_append.mp hx with h1 | h1
      · left; exact (List.pairwise_append.mp hp).2.2 x h1 t (by simp)
      · rcases List.mem_cons.mp h1 with h2 | h2
        · right; left; exact h2
        · rcases List.mem_cons.mp h2 with h3 | h3
          · right; right; left; exact h3
          · right; right; right
            have := (List.pairwise_append.mp hp).2.1
            have h4 := List.pairwise_cons.mp ((List.pairwise_cons.mp this).2)
            exact h4.1 x h3
    unfold Break at hbrk
    rw [hnext] at hbrk
    omega

/-- With the freed address a node of the list, the insert loop never
exits, from any starting node of the list and with any amount of fuel. -/
theorem insLoop_none_of_mem {m : Mem} {S : List Nat}
    (hsort : S.Chain' (· < ·)) (hcyc : CycNext m S) {x : Nat} (hx : x ∈ S) :
    ∀ fuel, ∀ t ∈ S, insLoop m x fuel t = none := by
  intro fuel
  induction fuel with
  | zero => intro t _; rfl
  | succ k ih =>
    intro t ht
    rw [insLoop_step m x k t (no_break_of_mem hsort hcyc hx t ht)]
    exact ih _ (cycNext_mem hcyc ht)

/-- A sorted list with an element strictly between its head and last has a
consecutive pair straddling any non-member in that range. -/
theorem sorted_straddle : ∀ {S : List Nat}, S.Chain' (· < ·) → ∀ {x : Nat},
    x ∉ S → S.headD 0 < x → x < S.getLastD 0 →
    ∃ X u y Y, S = X ++ u :: y :: Y ∧ u < x ∧ x < y := by
  intro S
  induction S with
  | nil => intro _ x _ _ h2; simp at h2
  | cons s ss ih =>
    intro hsort x hx h1 h2
    cases hss : ss with
    | nil => subst hss; simp at h1 h2; omega
    | cons t ts =>
      subst hss
      by_cases hxt : x < t
      · exact ⟨[], s, t, ts, by simp, by simpa using h1, hxt⟩
      · have hne : x ≠ t := by intro he; exact hx (by simp [he])
        have ht : t < x := by omega
        have htail : (t :: ts).Chain' (· < ·) := (List.chain'_cons'.mp hsort).2
        have hxs : x ∉ t :: ts := fun hc => hx (List.mem_cons_of_mem s hc)
        have hlast : (t :: ts).getLastD 0 = (s :: t :: ts).getLastD 0 := by
          simp [List.getLastD_cons]
        obtain ⟨X, u, y, Y, hSeq, hu, hy⟩ :=
          ih htail hxs (by simpa using ht) (by rw [hlast]; exact h2)
        exact ⟨s :: X, u, y, Y, by rw [show s :: (t :: ts) = s :: (X ++ u :: y :: Y) by rw [← hSeq]]; simp, hu, hy⟩

/-- Rotating the cyclic list to start at a member keeps it next-realized. -/
theorem rot_cycNext {m : Mem} {S C D : List Nat} {f : Nat}
    (hc : CycNext m S) (hS : S = C ++ f :: D) :
    CycNext m (f :: (D ++ C)) := by
  obtain ⟨hch, hwrap⟩ := hc
  subst hS
  constructor
  · rw [show f :: (D ++ C) = (f :: D) ++ C by simp]
    rw [List.chain'_append]
    have h0 := List.chain'_append.mp hch
    refine ⟨h0.2.1, h0.1, ?_⟩
    intro x hxa y hy
    cases hC : C with
    | nil => subst hC; simp at hy
    | cons c C' =>
      subst hC
      simp only [List.head?_cons, Option.mem_some_iff] at hy
      have hxe : (f :: D).getLastD 0 = x := by
        have h := hxa
        rw [Option.mem_def, @getLast?_eq_some (f :: D) (by simp),
          Option.some_inj] at h
        exact h
      have h1 : ((c :: C') ++ f :: D).getLastD 0 = (f :: D).getLastD 0 :=
        getLastD_append_ne _ _ (by simp)
      rw [← hxe, ← h1, hwrap, ← hy]
      rfl
  · cases hC : C with
    | nil =>
      subst hC
      simpa using hwrap
    | cons c C' =>
      subst hC
      have h1 : (f :: (D ++ c :: C')).getLastD 0 = (c :: C').getLastD 0 := by
        rw [show f :: (D ++ c :: C') = (f :: D) ++ (c :: C') by simp]
        exact getLastD_append_ne _ _ (by simp)
      rw [h1]
      have h0 := (List.chain'_append.mp hch).2.2
      have h2 := h0 ((c :: C').getLastD 0)
        (by rw [@getLast?_eq_some (c :: C') (by simp)]; simp) f (by simp)
      simpa using h2

/-- A sorted cyclic nonsingleton arena has a node where the break
condition holds, for every address that is not a node. -/
theorem exists_breaker {m : Mem} {S : List Nat}
    (hsort : S.Chain' (· < ·)) (hcyc : CycNext m S)
    (h2 : 2 ≤ S.length) {x : Nat} (hx : x ∉ S) :
    ∃ t ∈ S, Break m x t := by
  have hne : S ≠ [] := by intro h; rw [h] at h2; simp at h2
  have hLS : S.getLastD 0 ∈ S := getLastD_mem hne
  have hHS : S.headD 0 ∈ S := headD_mem hne
  have hHL : S.headD 0 < S.getLastD 0 := by
    cases S with
    | nil => simp at hne
    | cons s ss =>
      cases hss : ss with
      | nil => subst hss; simp at h2
      | cons t ts =>
        subst hss
        have hp := sorted_pairwise hsort
        have hl1 : (t :: ts).getLastD 0 ∈ t :: ts := getLastD_mem (by simp)
        have hl2 : (s :: t :: ts).getLastD 0 = (t :: ts).getLastD 0 := by
          simp only [List.getLastD_cons]
        rw [hl2]
        exact (List.pairwise_cons.mp hp).1 _ hl1
  obtain ⟨X, Y, hSL⟩ := List.append_of_mem hLS
  have hY : Y = [] := by
    cases hYc : Y with
    | nil => rfl
    | cons y Y' =>
      subst hYc
      have hyS : y ∈ S := by rw [hSL]; simp
      have hyle : y ≤ S.getLastD 0 := sorted_le_last hsort hyS
      have hp := sorted_pairwise hsort
      rw [hSL] at hp
      have : S.getLastD 0 < y :=
        (List.pairwise_cons.mp (List.pairwise_append.mp hp).2.1).1 y (by simp)
      omega
  subst hY
  have hnextL : (m (S.getLastD 0)).next = S.headD 0 := cycNext_last hcyc hSL
  by_cases hxH : x < S.headD 0
  · exact ⟨S.getLastD 0, hLS,
      Or.inr ⟨by rw [hnextL]; omega, Or.inr (by rw [hnextL]; exact hxH)⟩⟩
  by_cases hxL : S.getLastD 0 < x
  · exact ⟨S.getLastD 0, hLS, Or.inr ⟨by rw [hnextL]; omega, Or.inl hxL⟩⟩
  have hH2 : S.headD 0 < x := by
    rcases Nat.lt_or_ge (S.headD 0) x with h | h
    · exact h
    · have hxe : x = S.headD 0 := by omega
      exact absurd (hxe ▸ hHS) hx
  have hL2 : x < S.getLastD 0 := by
    rcases Nat.lt_or_ge x (S.getLastD 0) with h | h
    · exact h
    · have hxe : x = S.getLastD 0 := by omega
      exact absurd (hxe ▸ hLS) hx
  obtain ⟨X', u, y, Y', hSp, hu, hy⟩ := sorted_straddle hsort hx hH2 hL2
  have hnextu : (m u).next = y := cycNext_pair hcyc hSp
  exact ⟨u, by rw [hSp]; simp, Or.inl ⟨hu, by rw [hnextu]; exact hy⟩⟩

/-- The insert loop, started anywhere on a next-linked segment containing
a break node, exits within the segment's length. -/
theorem insLoop_reach {m : Mem} {x : Nat} :
    ∀ (R : List Nat), R.Chain' (fun a b => (m a).next = b) →
    ∀ start : Nat, R.headD 0 = start → (∃ t ∈ R, Break m x t) →
    ∃ t, insLoop m x R.length start = some t ∧ Break m x t := by
  intro R
  induction R with
  | nil => intro _ start _ hex; obtain ⟨t, ht, _⟩ := hex; simp at ht
  | cons hd rest ih =>
    intro hch start hhead hex
    have hstart : start = hd := by simpa using hhead.symm
    rw [hstart]
    by_cases hba : Break m x hd
    · exact ⟨hd, by
        rw [show (hd :: rest).length = rest.length + 1 from rfl,
          insLoop_break _ _ _ _ hba], hba⟩
    · obtain ⟨t, htR, htb⟩ := hex
      have htrest : t ∈ rest := by
        rcases List.mem_cons.mp htR with h | h
        · exact absurd (h ▸ htb) hba
        · exact h
      cases hrest : rest with
      | nil => subst hrest; simp at htrest
      | cons b rest' =>
        subst hrest
        have hab : (m hd).next = b := (List.chain'_cons.mp hch).1
        rw [show (hd :: b :: rest').length = (b :: rest').length + 1 from rfl,
          insLoop_step _ _ _ _ hba, hab]
        exact ih (List.chain'_cons.mp hch).2 b rfl ⟨t, htrest, htb⟩

/-- Claim C10: on a well-formed arena, the address-search loop of the
free/insert path (`insert_free_list`, `my_malloc.c:144-150`) exits within
one lap for every address that is strictly between two distinct nodes of
the cyclic list — equivalently, any non-node address, when the list has at
least two nodes — but for an address equal to a node already in the list
(as on a double free of the same payload) no exit condition is ever
satisfied at any node, and the loop runs forever: it returns `none` for
every amount of fuel. -/
theorem c10_insert_loop_termination (m : Mem) (f brk x : Nat) (S : List Nat)
    (hwf : WF m f brk S) :
    (x ∉ S → 2 ≤ S.length →
      ∃ t, insLoop m x S.length f = some t ∧ Break m x t) ∧
    (x ∈ S → (∀ t ∈ S, ¬ Break m x t) ∧ ∀ fuel, insLoop m x fuel f = none) := by
  obtain ⟨hf, hne, hsort, hcyc, hnc, hbnd⟩ := hwf
  constructor
  · intro hx h2
    obtain ⟨C, D, hS⟩ := List.append_of_mem hf
    have hrot := rot_cycNext hcyc hS
    have hlen : (f :: (D ++ C)).length = S.length := by rw [hS]; simp; omega
    have hex : ∃ t ∈ f :: (D ++ C), Break m x t := by
      obtain ⟨t, htS, htb⟩ := exists_breaker hsort hcyc h2 hx
      refine ⟨t, ?_, htb⟩
      rw [hS] at htS
      simp at htS ⊢
      tauto
    obtain ⟨t, hloop, htb⟩ := insLoop_reach (f :: (D ++ C)) hrot.1 f rfl hex
    rw [hlen] at hloop
    exact ⟨t, hloop, htb⟩
  · intro hx
    exact ⟨no_break_of_mem hsort hcyc hx,
      fun fuel => insLoop_none_of_mem hsort hcyc hx fuel f hf⟩

/-- Well-formedness of a concrete two-node arena. -/
theorem WF_pair {m : Mem} {x y brk : Nat} (hxy : x < y)
    (hnx : (m x).next = y) (hny : (m y).next = x)
    (hnc : x + (m x).size < y)
    (hbx : x + (m x).size ≤ brk) (hby : y < brk) (hbys : y + (m y).size ≤ brk) :
    WF m x brk [x, y] := by
  refine ⟨by simp, by simp, ?_, ⟨?_, ?_⟩, ?_, ?_⟩
  · exact List.chain'_cons.mpr ⟨hxy, List.chain'_singleton y⟩
  · exact List.chain'_cons.mpr ⟨hnx, List.chain'_singleton y⟩
  · simpa using hny
  · exact List.chain'_cons.mpr ⟨hnc, List.chain'_singleton y⟩
  · intro a ha
    rcases List.mem_cons.mp ha with h | h
    · subst h; exact ⟨by omega, hbx⟩
    · simp at h; subst h; exact ⟨hby, hbys⟩

/-- Witness for C10 on a concrete two-node arena: the loop exits for the
non-node address `1500` and never exits for the node address
`heapStart`. -/
theorem c10_insert_loop_termination_witness :
    WF memC5 baseAddr (2 ^ 32 + 1007) [baseAddr, heapStart] ∧
    insLoop memC5 1500 2 baseAddr ≠ none ∧
    insLoop memC5 heapStart 7 baseAddr = none := by
  have hwf : WF memC5 baseAddr (2 ^ 32 + 1007) [baseAddr, heapStart] :=
    WF_pair (by decide) (by decide) (by decide) (by decide) (by decide)
      (by decide) (by decide)
  refine ⟨hwf, ?_, ?_⟩
  · obtain ⟨t, ht, _⟩ :=
      (c10_insert_loop_termination memC5 baseAddr _ 1500 _ hwf).1
        (by decide) (by decide)
    rw [show ([baseAddr, heapStart] : List Nat).length = 2 from rfl] at ht
    rw [ht]
    simp
  · exact ((c10_insert_loop_termination memC5 baseAddr _ heapStart _ hwf).2
      (by decide)).2 7

/-- A strictly ascending list has no duplicates. -/
theorem sorted_nodup {S : List Nat} (h : S.Chain' (· < ·)) : S.Nodup :=
  (sorted_pairwise h).imp Nat.ne_of_lt

/-- Soundness of the search lap over a next-linked walk ending at the head
node `f`: with enough fuel the lap cannot run out, an exact result names a
node of size `su` with its true walk predecessor, and a carve result names
a strictly larger fitting node with its true walk predecessor. -/
theorem searchGo_sound {m : Mem} {f su : Nat} {S : List Nat} :
    ∀ (W : List Nat) (fuel prev mind : Nat) (best : Option (Nat × Nat)),
    W ≠ [] → W.length ≤ fuel →
    W.Chain' (fun a b => (m a).next = b) →
    (∀ w ∈ W, w ∈ S) → prev ∈ S → (m prev).next = W.headD 0 →
    W.getLastD 0 = f → (∀ w ∈ W.dropLast, w ≠ f) →
    (best = none ∨ ∃ b bp, best = some (b, bp) ∧ b ∈ S ∧ su ≤ (m b).size ∧
      (m b).size ≠ su ∧ bp ∈ S ∧ (m bp).next = b) →
    (match searchGo m f su fuel prev (W.headD 0) mind best with
     | .out => False
     | .exact p c => c ∈ S ∧ (m c).size = su ∧ p ∈ S ∧ (m p).next = c
     | .carve b bp => b ∈ S ∧ su ≤ (m b).size ∧ (m b).size ≠ su ∧
         bp ∈ S ∧ (m bp).next = b
     | .miss => True) := by
  intro W
  induction W with
  | nil => intro _ _ _ _ hne; exact absurd rfl hne
  | cons c rest ih =>
    intro fuel prev mind best _ hfuel hch hmem hprev hpl hlast hdrop hinv
    cases fuel with
    | zero => simp at hfuel
    | succ fl =>
      have hc : c ∈ S := hmem c (by simp)
      simp only [List.headD_cons]
      by_cases hex : (m c).size = su
      · rw [searchGo_exact _ _ _ _ _ _ _ _ hex]
        exact ⟨hc, hex, hprev, by simpa using hpl⟩
      · have hstep := searchGo_cont m f su fl prev c mind best hex
        by_cases hcf : c = f
        · cases hr : rest with
          | nil =>
            rw [hcf]
            rw [searchGo_last _ _ _ _ _ _ _ (hcf ▸ hex)]
            by_cases hup : su ≤ (m f).size ∧ (m f).size - su < mind
            · rw [if_pos hup]
              exact ⟨hcf ▸ hc, hup.1, hcf ▸ hex, hprev, hcf ▸ (by simpa using hpl)⟩
            · rw [if_neg hup]
              rcases hinv with h | ⟨b, bp, hbe, hb⟩
              · rw [h]
                trivial
              · rw [hbe]
                exact hb
          | cons d rest' =>
            exfalso
            exact hdrop c (by rw [hr]; simp) hcf
        · rw [hstep hcf]
          cases hr : rest with
          | nil =>
            subst hr
            exact absurd (by simpa using hlast) hcf
          | cons d rest' =>
            subst hr
            have hcd : (m c).next = d := (List.chain'_cons.mp hch).1
            have hnext : (m c).next = (d :: rest').headD 0 := by
              rw [hcd]; rfl
            have hrec := fun mind' best' hinv' =>
              ih (fl) c mind' best' (by simp) (by simpa using hfuel)
                (List.chain'_cons.mp hch).2
                (fun w hw => hmem w (List.mem_cons_of_mem c hw)) hc hnext
                (by simpa using hlast)
                (fun w hw => hdrop w (by simp [List.dropLast_cons₂] at hw ⊢; tauto))
                hinv'
            by_cases hup : su ≤ (m c).size ∧ (m c).size - su < mind
            · rw [if_pos hup, hcd]
              have := hrec ((m c).size - su) (some (c, prev))
                (Or.inr ⟨c, prev, rfl, hc, hup.1, hex, hprev, by simpa using hpl⟩)
              simpa using this
            · rw [if_neg hup, hcd]
              have := hrec mind best hinv
              simpa using this

/-- Search soundness on a well-formed arena: with one lap of fuel the
search cannot run out; an exact hit names a node of exactly the requested
size together with its cyclic predecessor; a carve result names a strictly
larger fitting node together with its cyclic predecessor. -/
theorem search_sound {m : Mem} {f brk su : Nat} {S : List Nat}
    (hwf : WF m f brk S) {fuel : Nat} (hfuel : S.length ≤ fuel) :
    (match search m f su fuel with
     | .out => False
     | .exact p c => c ∈ S ∧ (m c).size = su ∧ p ∈ S ∧ (m p).next = c
     | .carve b bp => b ∈ S ∧ su ≤ (m b).size ∧ (m b).size ≠ su ∧
         bp ∈ S ∧ (m bp).next = b
     | .miss => True) := by
  obtain ⟨hf, hne, hsort, hcyc, hnc, hbnd⟩ := hwf
  obtain ⟨C, D, hS⟩ := List.append_of_mem hf
  have hrot := rot_cycNext hcyc hS
  have hWne : (D ++ C) ++ [f] ≠ ([] : List Nat) := by simp
  have hWlen : ((D ++ C) ++ [f]).length ≤ fuel := by
    rw [hS] at hfuel
    simp at hfuel ⊢
    omega
  have hchW : ((D ++ C) ++ [f]).Chain' (fun a b => (m a).next = b) := by
    rw [List.chain'_append]
    refine ⟨(List.chain'_cons'.mp hrot.1).2, List.chain'_singleton f, ?_⟩
    intro x hx y hy
    simp at hy
    subst hy
    have h2 := hrot.2
    cases hDC : D ++ C with
    | nil => rw [hDC] at hx; simp at hx
    | cons e E =>
      rw [hDC] at hx
      rw [@getLast?_eq_some (e :: E) (by simp)] at hx
      simp at hx
      rw [hDC] at h2
      have h3 : (f :: e :: E).getLastD 0 = (e :: E).getLastD 0 := by
        simp [List.getLastD_cons]
      rw [h3] at h2
      rw [← hx, ← List.getLastD_eq_getLast?]
      simpa using h2
  have hmemW : ∀ w ∈ (D ++ C) ++ [f], w ∈ S := by
    intro w hw
    rw [hS]
    simp at hw ⊢
    tauto
  have hstart : (m f).next = ((D ++ C) ++ [f]).headD 0 := by
    cases hDC : D ++ C with
    | nil =>
      have h2 := hrot.2
      rw [hDC] at h2
      simpa using h2
    | cons e E =>
      have h1 := (List.chain'_cons'.mp hrot.1).1
      rw [hDC] at h1
      simpa using h1 e rfl
  have hlastW : ((D ++ C) ++ [f]).getLastD 0 = f := List.getLastD_concat _ _ _
  have hdropW : ∀ w ∈ ((D ++ C) ++ [f]).dropLast, w ≠ f := by
    intro w hw
    rw [List.dropLast_concat] at hw
    have hnd := sorted_nodup hsort
    rw [hS] at hnd
    have h1 := List.nodup_append.mp hnd
    intro he
    subst he
    rcases List.mem_append.mp hw with h | h
    · exact (List.nodup_cons.mp h1.2.1).1 h
    · exact absurd (show w ∈ w :: D by simp) (h1.2.2 h)
  have hmain := @searchGo_sound m f su S ((D ++ C) ++ [f]) fuel f UINT_MAXn
    none hWne hWlen hchW hmemW hf hstart hlastW hdropW (Or.inl rfl)
  unfold search
  rw [hstart]
  exact hmain

/-- Claim C7: when the search keeps a non-exact best block `b` of size `B`
for a request of `R = sunits n` units, `my_malloc` mutates only the size
field of the low block — shrunk in place to `B - R`, its `next` (and tid)
untouched and all other list linkage unchanged — writes a new header of
size `R` at address `b + (B - R)` (whose `next` bytes are also untouched),
returns the payload `(b + (B - R)) + 1`, and sets the head to the cyclic
predecessor of `b`; every other memory cell, the break and the growth
ledger are unchanged. -/
theorem c7_carve_frame (self baseA n fuel : Nat) (st : St) (f brk b bp : Nat)
    (S : List Nat) (hf : st.fl = some f) (hwf : WF st.mem f brk S)
    (hfuel : S.length ≤ fuel + 1)
    (hs : search st.mem f (sunits n) (fuel + 1) = .carve b bp) :
    (my_malloc self baseA n (fuel + 1) st).1 =
      MOut.payload (b + ((st.mem b).size - sunits n) + 1) ∧
    (my_malloc self baseA n (fuel + 1) st).2.fl = some bp ∧
    (st.mem bp).next = b ∧ bp ∈ S ∧ b ∈ S ∧
    sunits n < (st.mem b).size ∧
    ((my_malloc self baseA n (fuel + 1) st).2.mem b).size =
      (st.mem b).size - sunits n ∧
    ((my_malloc self baseA n (fuel + 1) st).2.mem b).next = (st.mem b).next ∧
    ((my_malloc self baseA n (fuel + 1) st).2.mem b).tid = (st.mem b).tid ∧
    ((my_malloc self baseA n (fuel + 1) st).2.mem
        (b + ((st.mem b).size - sunits n))).size = sunits n ∧
    ((my_malloc self baseA n (fuel + 1) st).2.mem
        (b + ((st.mem b).size - sunits n))).next =
      (st.mem (b + ((st.mem b).size - sunits n))).next ∧
    (∀ a, a ≠ b → a ≠ b + ((st.mem b).size - sunits n) →
      (my_malloc self baseA n (fuel + 1) st).2.mem a = st.mem a) ∧
    (my_malloc self baseA n (fuel + 1) st).2.brk = st.brk ∧
    (my_malloc self baseA n (fuel + 1) st).2.growthReqs = st.growthReqs := by
  have hsound := @search_sound st.mem f brk (sunits n) S hwf (fuel + 1) hfuel
  rw [hs] at hsound
  obtain ⟨hbS, hle, hneq, hbpS, hnextbp⟩ := hsound
  have hlt : sunits n < (st.mem b).size :=
    Nat.lt_of_le_of_ne hle (fun h => hneq h.symm)
  have hbne : ¬ (b = b + ((st.mem b).size - sunits n)) := by omega
  have hbne2 : ¬ (b + ((st.mem b).size - sunits n) = b) := by omega
  have hz : ¬ ((st.mem b).size - sunits n = 0) := by omega
  rw [my_malloc_carve_step self baseA n fuel st f b bp hf hs]
  refine ⟨rfl, rfl, hnextbp, hbpS, hbS, hlt, ?_, ?_, ?_, ?_, ?_, ?_, rfl, rfl⟩
  · simp [processBlock, updSize_apply, hbne2, hz]
  · simp [processBlock, updSize_apply, hbne2, hz]
  · simp [processBlock, updSize_apply, hbne2, hz]
  · simp [processBlock, updSize_apply]
  · simp [processBlock, updSize_apply, hbne, hz]
  · intro a ha1 ha2
    simp [processBlock, updSize_apply, ha1, ha2]

/-- Witness for C7: carving one 2-unit block out of a 3-unit block on a
concrete arena. -/
theorem c7_carve_frame_witness :
    WF memC7 baseAddr 1003 [baseAddr, heapStart] ∧
    search memC7 baseAddr (sunits 24) 5 = .carve heapStart baseAddr ∧
    (my_malloc 1 baseAddr 24 5 stC7).1 = MOut.payload 1002 ∧
    ((my_malloc 1 baseAddr 24 5 stC7).2.mem heapStart).size = 1 ∧
    (my_malloc 1 baseAddr 24 5 stC7).2.fl = some baseAddr := by
  have hwf : WF memC7 baseAddr 1003 [baseAddr, heapStart] :=
    WF_pair (by decide) (by decide) (by decide) (by decide) (by decide)
      (by decide) (by decide)
  have h := c7_carve_frame 1 baseAddr 24 4 stC7 baseAddr 1003 heapStart baseAddr
    [baseAddr, heapStart] rfl hwf (by decide) (by decide)
  exact ⟨hwf, by decide, h.1, h.2.2.2.2.2.2.1, h.2.1⟩

/-- Split a list at the first element satisfying a decidable predicate. -/
theorem first_split {P : Nat → Prop} [DecidablePred P] :
    ∀ (W : List Nat), (∃ w ∈ W, P w) →
    ∃ W1 c W2, W = W1 ++ c :: W2 ∧ P c ∧ ∀ w ∈ W1, ¬ P w := by
  intro W
  induction W with
  | nil =>
    rintro ⟨w, hw, _⟩
    simp at hw
  | cons a rest ih =>
    intro hex
    by_cases hPa : P a
    · exact ⟨[], a, rest, rfl, hPa, by simp⟩
    · obtain ⟨w, hw, hPw⟩ := hex
      have hwr : w ∈ rest := by
        rcases List.mem_cons.mp hw with h | h
        · exact absurd (h ▸ hPw) hPa
        · exact h
      obtain ⟨W1, c, W2, he, hc, hn⟩ := ih ⟨w, hwr, hPw⟩
      refine ⟨a :: W1, c, W2, by rw [List.cons_append, ← he], hc, ?_⟩
      intro w' hw'
      rcases List.mem_cons.mp hw' with h | h
      · exact h ▸ hPa
      · exact hn w' h

/-- The search/insert walk order of a well-formed arena whose sorted node
list splits as `S = C ++ f :: D` around the entry `f`: the walk visits
`D ++ C ++ [f]` — the nodes one past the head, around the cycle, ending at
the head — and is next-linked, starts at `f`'s successor, ends at `f`, and
stays within `S`. -/
theorem walk_props {m : Mem} {f brk : Nat} {S C D : List Nat}
    (hwf : WF m f brk S) (hS : S = C ++ f :: D) :
    ((D ++ C) ++ [f]) ≠ [] ∧
    ((D ++ C) ++ [f]).Chain' (fun a b => (m a).next = b) ∧
    (∀ w ∈ (D ++ C) ++ [f], w ∈ S) ∧
    (m f).next = ((D ++ C) ++ [f]).headD 0 ∧
    ((D ++ C) ++ [f]).getLastD 0 = f ∧
    (∀ w ∈ ((D ++ C) ++ [f]).dropLast, w ≠ f) ∧
    ((D ++ C) ++ [f]).length = S.length := by
  obtain ⟨hf, hne, hsort, hcyc, hnc, hbnd⟩ := hwf
  have hrot := rot_cycNext hcyc hS
  refine ⟨by simp, ?_, ?_, ?_, List.getLastD_concat _ _ _, ?_, ?_⟩
  · rw [List.chain'_append]
    refine ⟨(List.chain'_cons'.mp hrot.1).2, List.chain'_singleton f, ?_⟩
    intro x hx y hy
    simp at hy
    subst hy
    have h2 := hrot.2
    cases hDC : D ++ C with
    | nil => rw [hDC] at hx; simp at hx
    | cons e E =>
      rw [hDC] at hx
      rw [@getLast?_eq_some (e :: E) (by simp)] at hx
      simp at hx
      rw [hDC] at h2
      have h3 : (f :: e :: E).getLastD 0 = (e :: E).getLastD 0 := by
        simp [List.getLastD_cons]
      rw [h3] at h2
      rw [← hx, ← List.getLastD_eq_getLast?]
      simpa using h2
  · intro w hw
    rw [hS]
    simp at hw ⊢
    tauto
  · cases hDC : D ++ C with
    | nil =>
      have h2 := hrot.2
      rw [hDC] at h2
      simpa using h2
    | cons e E =>
      have h1 := (List.chain'_cons'.mp hrot.1).1
      rw [hDC] at h1
      simpa using h1 e rfl
  · intro w hw
    rw [List.dropLast_concat] at hw
    have hnd := sorted_nodup hsort
    rw [hS] at hnd
    have h1 := List.nodup_append.mp hnd
    intro he
    subst he
    rcases List.mem_append.mp hw with h | h
    · exact (List.nodup_cons.mp h1.2.1).1 h
    · exact absurd (show w ∈ w :: D by simp) (h1.2.2 h)
  · rw [hS]
    simp
    omega

/-- If the first block of exactly the requested size along the remaining
walk is `c`, the search exits through the exact-fit branch at `c`. -/
theorem searchGo_exact_first {m : Mem} {f su : Nat} :
    ∀ (W1 : List Nat) (c : Nat) (W2 : List Nat) (fuel prev mind : Nat)
      (best : Option (Nat × Nat)),
    (W1 ++ c :: W2).length ≤ fuel →
    (W1 ++ c :: W2).Chain' (fun a b => (m a).next = b) →
    (m prev).next = (W1 ++ c :: W2).headD 0 →
    (∀ w ∈ W1, w ≠ f) →
    (m c).size = su → (∀ w ∈ W1, (m w).size ≠ su) →
    ∃ p, searchGo m f su fuel prev ((W1 ++ c :: W2).headD 0) mind best =
      .exact p c := by
  intro W1
  induction W1 with
  | nil =>
    intro c W2 fuel prev mind best hfuel _ _ _ hc _
    cases fuel with
    | zero => simp at hfuel
    | succ fl =>
      exact ⟨prev, by simpa using searchGo_exact m f su fl prev c mind best hc⟩
  | cons w W1' ih =>
    intro c W2 fuel prev mind best hfuel hch hpl hW1f hc hW1
    cases fuel with
    | zero => simp at hfuel
    | succ fl =>
      have hwne : (m w).size ≠ su := hW1 w (by simp)
      have hwf2 : w ≠ f := hW1f w (by simp)
      have hlink : (m w).next = (W1' ++ c :: W2).headD 0 := by
        have := (List.chain'_cons'.mp (by simpa using hch)).1
        cases hW : W1' ++ c :: W2 with
        | nil => simp at hW
        | cons e E =>
          rw [hW] at this
          simpa using this e rfl
      have hrec := fun mind' best' =>
        ih c W2 fl w mind' best' (by simpa using hfuel)
          (by simpa using (List.chain'_cons'.mp (by simpa using hch)).2) hlink
          (fun v hv => hW1f v (by simp [hv]))
          hc (fun v hv => hW1 v (by simp [hv]))
      simp only [List.cons_append, List.headD_cons]
      rw [searchGo_cont m f su fl prev w mind best hwne hwf2]
      by_cases hup : su ≤ (m w).size ∧ (m w).size - su < mind
      · rw [if_pos hup, hlink]
        exact hrec ((m w).size - su) (some (w, prev))
      · rw [if_neg hup, hlink]
        exact hrec mind best

/-- The 32-bit best-fit tracker, over a walk with no exact-size block:
(B) if no fitting block on the walk beats the current tracker value, the
lap ends with the already-recorded candidate (or a miss); (A) if `c` is
the first block on the walk attaining the minimal fitting size and its
excess beats the tracker, the lap carves `c`. -/
theorem searchGo_carve_min {m : Mem} {f su : Nat} :
    ∀ (W : List Nat) (fuel prev mind : Nat) (best : Option (Nat × Nat)),
    W ≠ [] → W.length ≤ fuel →
    W.Chain' (fun a b => (m a).next = b) →
    (m prev).next = W.headD 0 →
    W.getLastD 0 = f →
    (∀ w ∈ W.dropLast, w ≠ f) →
    (∀ w ∈ W, (m w).size ≠ su) →
    ((∀ w ∈ W, su ≤ (m w).size → mind ≤ (m w).size - su) →
      searchGo m f su fuel prev (W.headD 0) mind best =
        (match best with
         | some (b, bp) => SearchOut.carve b bp
         | none => SearchOut.miss)) ∧
    (∀ W1 c W2, W = W1 ++ c :: W2 → su ≤ (m c).size →
      (m c).size - su < mind →
      (∀ w ∈ W, su ≤ (m w).size → (m c).size ≤ (m w).size) →
      (∀ w ∈ W1, (m w).size ≠ (m c).size) →
      ∃ bp, searchGo m f su fuel prev (W.headD 0) mind best =
        .carve c bp) := by
  intro W
  induction W with
  | nil => intro fuel prev mind best hne; exact absurd rfl hne
  | cons w rest ih =>
    intro fuel prev mind best _ hfuel hch hpl hlast hdrop hno
    cases fuel with
    | zero => simp at hfuel
    | succ fl =>
      have hwne : (m w).size ≠ su := hno w (by simp)
      cases hr : rest with
      | nil =>
        subst hr
        have hwf2 : w = f := by simpa using hlast
        subst hwf2
        constructor
        · intro hmin
          simp only [List.headD_cons]
          rw [searchGo_last _ _ _ _ _ _ _ hwne]
          have hcond : ¬ (su ≤ (m w).size ∧ (m w).size - su < mind) := by
            intro hc
            have := hmin w (by simp) hc.1
            omega
          rw [if_neg hcond]
          all_goals
            cases best with
            | none => rfl
            | some p => obtain ⟨b, bp⟩ := p; rfl
        · intro W1 c W2 hsplit hfit hdiff hminsz hfirst
          have hW1 : w = c ∧ W1 = [] := by
            cases W1 with
            | nil => simp at hsplit; exact ⟨hsplit.1, rfl⟩
            | cons a W1' => simp at hsplit
          obtain ⟨hcw, hW1e⟩ := hW1
          simp only [List.headD_cons]
          rw [searchGo_last _ _ _ _ _ _ _ hwne,
            if_pos ⟨hcw ▸ hfit, hcw ▸ hdiff⟩]
          exact ⟨prev, by rw [← hcw]⟩
      | cons d rest' =>
        subst hr
        have hwf2 : w ≠ f := hdrop w (by simp [List.dropLast_cons₂])
        have hlink : (m w).next = (d :: rest').headD 0 := by
          have h1 := (List.chain'_cons'.mp hch).1
          simpa using h1 d rfl
        have hch' := (List.chain'_cons'.mp hch).2
        have hfuel' : (d :: rest').length ≤ fl := by simpa using hfuel
        have hlast' : (d :: rest').getLastD 0 = f := by
          simp only [List.getLastD_cons] at hlast ⊢
          exact hlast
        have hdrop' : ∀ v ∈ (d :: rest').dropLast, v ≠ f := by
          intro v hv
          exact hdrop v (by rw [List.dropLast_cons₂]; simp [hv])
        have hno' : ∀ v ∈ d :: rest', (m v).size ≠ su :=
          fun v hv => hno v (by simp [hv])
        have hrec := fun mind' best' =>
          ih fl w mind' best' (by simp) hfuel' hch' hlink hlast' hdrop' hno'
        constructor
        · intro hmin
          simp only [List.headD_cons]
          rw [searchGo_cont m f su fl prev w mind best hwne hwf2]
          have hcond : ¬ (su ≤ (m w).size ∧ (m w).size - su < mind) := by
            intro hc
            have := hmin w (by simp) hc.1
            omega
          rw [if_neg hcond, hlink]
          exact (hrec mind best).1 (fun v hv h => hmin v (by simp [hv]) h)
        · intro W1 c W2 hsplit hfit hdiff hminsz hfirst
          simp only [List.headD_cons]
          rw [searchGo_cont m f su fl prev w mind best hwne hwf2]
          cases W1 with
          | nil =>
            simp only [List.nil_append] at hsplit
            have hcw : w = c := (List.cons.injEq _ _ _ _ ▸ hsplit).1
            have hrest : d :: rest' = W2 := (List.cons.injEq _ _ _ _ ▸ hsplit).2
            rw [if_pos ⟨hcw ▸ hfit, hcw ▸ hdiff⟩, hlink]
            refine ⟨prev, ?_⟩
            have hB := (hrec ((m w).size - su) (some (w, prev))).1
              (fun v hv hle => by
                have h1 : (m c).size ≤ (m v).size := hminsz v (by simp [hv]) hle
                have h2 : su ≤ (m c).size := hfit
                rw [← hcw] at h1 h2
                omega)
            rw [hB, ← hcw]
          | cons a W1' =>
            simp only [List.cons_append] at hsplit
            have haw : w = a := (List.cons.injEq _ _ _ _ ▸ hsplit).1
            have hrest : d :: rest' = W1' ++ c :: W2 :=
              (List.cons.injEq _ _ _ _ ▸ hsplit).2
            have hsub_min : ∀ v ∈ d :: rest', su ≤ (m v).size →
                (m c).size ≤ (m v).size :=
              fun v hv h => hminsz v (by simp [hv]) h
            have hsub_first : ∀ v ∈ W1', (m v).size ≠ (m c).size :=
              fun v hv => hfirst v (by simp [hv])
            by_cases hup : su ≤ (m w).size ∧ (m w).size - su < mind
            · rw [if_pos hup, hlink]
              have hszc : (m c).size < (m w).size := by
                have h1 : (m c).size ≤ (m w).size := hminsz w (by simp) hup.1
                have h2 : (m w).size ≠ (m c).size := by
                  have h3 := hfirst a (by simp)
                  rw [haw]
                  exact h3
                omega
              exact (hrec ((m w).size - su) (some (w, prev))).2 W1' c W2 hrest
                hfit (by omega) hsub_min hsub_first
            · rw [if_neg hup, hlink]
              exact (hrec mind best).2 W1' c W2 hrest hfit hdiff hsub_min
                hsub_first

/-- Claim C5 (amended): on a well-formed arena split as `S = C ++ f :: D`
around the head `f`, let `mfs` be the minimal size among free blocks on
the walk `D ++ C ++ [f]` that fit the request `su`.  Provided the minimal
excess `mfs - su` is strictly below the 32-bit `UINT_MAX` tracker bound,
the search selects the FIRST block of size `mfs` in walk order — no block
before it on the walk has that size, and no later equal-sized block
displaces it: via the exact branch when `mfs = su`, via the carve branch
when `su < mfs`.  (The counterexample theorem shows the proviso is
necessary: a fitting block whose excess reaches `UINT_MAX` is never
recorded.) -/
theorem c5_best_fit_first_min (m : Mem) (f brk su mfs fuel : Nat)
    (S C D : List Nat) (hwf : WF m f brk S) (hS : S = C ++ f :: D)
    (hfuel : S.length ≤ fuel)
    (hmem : ∃ w ∈ (D ++ C) ++ [f], su ≤ (m w).size ∧ (m w).size = mfs)
    (hmin : ∀ w ∈ (D ++ C) ++ [f], su ≤ (m w).size → mfs ≤ (m w).size)
    (hdiff : mfs - su < UINT_MAXn) :
    ∃ W1 c W2, (D ++ C) ++ [f] = W1 ++ c :: W2 ∧ (m c).size = mfs ∧
      (∀ w ∈ W1, (m w).size ≠ mfs) ∧
      ((mfs = su ∧ ∃ p, search m f su fuel = .exact p c) ∨
       (su < mfs ∧ ∃ bp, search m f su fuel = .carve c bp)) := by
  obtain ⟨hWne, hchW, hmemW, hstart, hlastW, hdropW, hlenW⟩ := walk_props hwf hS
  have hsu_mfs : su ≤ mfs := by
    obtain ⟨w, hw, h1, h2⟩ := hmem
    omega
  by_cases hex : ∃ w ∈ (D ++ C) ++ [f], (m w).size = su
  · obtain ⟨W1, c, W2, hsplit, hc, hW1⟩ :=
      first_split (P := fun w => (m w).size = su) _ hex
    have hmfs_su : mfs = su := by
      have h1 : mfs ≤ (m c).size :=
        hmin c (by rw [hsplit]; simp) (le_of_eq hc.symm)
      omega
    refine ⟨W1, c, W2, hsplit, by rw [hc, hmfs_su], ?_,
      Or.inl ⟨hmfs_su, ?_⟩⟩
    · intro w hw
      rw [hmfs_su]
      exact hW1 w hw
    · rw [hsplit] at hchW hlenW
      have hW1f : ∀ w ∈ W1, w ≠ f := by
        intro w hw
        refine hdropW w ?_
        rw [hsplit, List.dropLast_append_cons]
        exact List.mem_append_left _ hw
      have hpl : (m f).next = (W1 ++ c :: W2).headD 0 := by
        rw [← hsplit]
        exact hstart
      unfold search
      rw [hpl]
      exact searchGo_exact_first W1 c W2 fuel f UINT_MAXn none
        (by omega) hchW hpl hW1f hc hW1
  · have hexn : ∀ w ∈ (D ++ C) ++ [f], (m w).size ≠ su := by
      intro w hw he
      exact hex ⟨w, hw, he⟩
    have hsu_lt : su < mfs := by
      rcases Nat.lt_or_ge su mfs with h | h
      · exact h
      · obtain ⟨w, hw, h1, h2⟩ := hmem
        exact absurd (by omega : (m w).size = su) (hexn w hw)
    obtain ⟨W1, c, W2, hsplit, hc, hW1⟩ :=
      first_split (P := fun w => (m w).size = mfs) _
        (by obtain ⟨w, hw, _, h2⟩ := hmem; exact ⟨w, hw, h2⟩)
    refine ⟨W1, c, W2, hsplit, hc, hW1, Or.inr ⟨hsu_lt, ?_⟩⟩
    have hcm := (searchGo_carve_min ((D ++ C) ++ [f]) fuel f UINT_MAXn none
      hWne (by omega) hchW hstart hlastW hdropW hexn).2 W1 c W2 hsplit
      (by rw [hc]; omega) (by rw [hc]; exact hdiff)
      (fun w hw hle => by rw [hc]; exact hmin w hw hle)
      (fun w hw => by rw [hc]; exact hW1 w hw)
    unfold search
    rw [hstart]
    exact hcm

/-- Well-formedness of a concrete three-node arena. -/
theorem WF_triple {m : Mem} {x y z brk : Nat} (hxy : x < y) (hyz : y < z)
    (hnx : (m x).next = y) (hny : (m y).next = z) (hnz : (m z).next = x)
    (hnc1 : x + (m x).size < y) (hnc2 : y + (m y).size < z)
    (hbx : x + (m x).size ≤ brk) (hbz : z < brk)
    (hbys : y + (m y).size ≤ brk) (hbzs : z + (m z).size ≤ brk) :
    WF m x brk [x, y, z] := by
  refine ⟨by simp, by simp, ?_, ⟨?_, ?_⟩, ?_, ?_⟩
  · exact List.chain'_cons.mpr ⟨hxy,
      List.chain'_cons.mpr ⟨hyz, List.chain'_singleton z⟩⟩
  · exact List.chain'_cons.mpr ⟨hnx,
      List.chain'_cons.mpr ⟨hny, List.chain'_singleton z⟩⟩
  · simpa using hnz
  · exact List.chain'_cons.mpr ⟨hnc1,
      List.chain'_cons.mpr ⟨hnc2, List.chain'_singleton z⟩⟩
  · intro a ha
    rcases List.mem_cons.mp ha with h | h
    · subst h; exact ⟨by omega, hbx⟩
    · rcases List.mem_cons.mp h with h2 | h2
      · subst h2; exact ⟨by omega, hbys⟩
      · simp at h2; subst h2; exact ⟨hbz, hbzs⟩

/-- Witness for the amended C5 on a three-node arena with two equally
good 3-unit blocks: the walk-first block at `1000` is selected. -/
theorem c5_best_fit_first_min_witness :
    ∃ W1 c W2,
      (([1000, 1004] ++ []) ++ [baseAddr] : List Nat) = W1 ++ c :: W2 ∧
      (memC5b c).size = 3 ∧ (∀ w ∈ W1, (memC5b w).size ≠ 3) ∧
      ((3 = sunits 24 ∧
          ∃ p, search memC5b baseAddr (sunits 24) 3 = .exact p c) ∨
       (sunits 24 < 3 ∧
          ∃ bp, search memC5b baseAddr (sunits 24) 3 = .carve c bp)) := by
  have hwf : WF memC5b baseAddr 1008 [baseAddr, 1000, 1004] :=
    WF_triple (by decide) (by decide) (by decide) (by decide) (by decide)
      (by decide) (by decide) (by decide) (by decide) (by decide) (by decide)
  exact c5_best_fit_first_min memC5b baseAddr 1008 (sunits 24) 3 3
    [baseAddr, 1000, 1004] [] [1000, 1004] hwf rfl (by decide)
    (by decide) (by decide) (by decide)

/-- Splitting a chain at an interior occurrence. -/
theorem chain'_break_at {R : Nat → Nat → Prop} (X : List Nat) (u : Nat)
    (T : List Nat) :
    List.Chain' R (X ++ u :: T) ↔
      List.Chain' R (X ++ [u]) ∧ List.Chain' R (u :: T) := by
  have hsplit : X ++ u :: T = (X ++ [u]) ++ T := by simp
  have hlast : (X ++ [u]).getLast? = some u := by
    rw [@getLast?_eq_some (X ++ [u]) (by simp), List.getLastD_concat]
  rw [hsplit, List.chain'_append]
  constructor
  · rintro ⟨h1, h2, h3⟩
    refine ⟨h1, List.chain'_cons'.mpr ⟨fun y hy => ?_, h2⟩⟩
    exact h3 u (by rw [hlast]; rfl) y hy
  · rintro ⟨h1, h2⟩
    rw [List.chain'_cons'] at h2
    refine ⟨h1, h2.2, fun x hx y hy => ?_⟩
    rw [hlast] at hx
    simp only [Option.mem_def, Option.some_inj] at hx
    subst hx
    exact h2.1 y hy

/-- A chain transports along any relation that agrees on the elements
that have a successor (every element but the last). -/
theorem chain'_mono_dropLast {R Q : Nat → Nat → Prop} :
    ∀ (l : List Nat), List.Chain' R l →
      (∀ a ∈ l.dropLast, ∀ b, R a b → Q a b) → List.Chain' Q l := by
  intro l
  induction l with
  | nil => intro _ _; exact List.chain'_nil
  | cons a t ih =>
    cases t with
    | nil => intro _ _; simp
    | cons b t' =>
      intro h himp
      rw [List.chain'_cons] at h ⊢
      refine ⟨himp a ?_ b h.1, ih h.2 ?_⟩
      · rw [List.dropLast_cons₂]; exact List.mem_cons_self a _
      · intro x hx c hRc
        refine himp x ?_ c hRc
        rw [List.dropLast_cons₂]
        exact List.mem_cons_of_mem a hx

/-- Every element left of the last of a sorted concatenation is below it. -/
theorem sorted_concat_lt {X : List Nat} {u : Nat}
    (h : List.Chain' (· < ·) (X ++ [u])) : ∀ a ∈ X, a < u := by
  intro a ha
  have hp := sorted_pairwise h
  rw [List.pairwise_append] at hp
  exact hp.2.2 a ha u (by simp)

/-- Every tail element of a sorted cons is above the head. -/
theorem sorted_cons_lt {v : Nat} {Y : List Nat}
    (h : List.Chain' (· < ·) (v :: Y)) : ∀ a ∈ Y, v < a :=
  (List.pairwise_cons.mp (sorted_pairwise h)).1

/-- A `some` result of the insert loop started at a node is a node
satisfying the break condition. -/
theorem insLoop_some_mem {m : Mem} {S : List Nat} (hcyc : CycNext m S)
    {x : Nat} :
    ∀ {fuel start temp : Nat}, start ∈ S →
      insLoop m x fuel start = some temp → temp ∈ S ∧ Break m x temp := by
  intro fuel
  induction fuel with
  | zero => intro start temp _ h; simp [insLoop] at h
  | succ k ih =>
    intro start temp hs h
    by_cases hb : Break m x start
    · rw [insLoop_break m x k start hb] at h
      cases h
      exact ⟨hs, hb⟩
    · rw [insLoop_step m x k start hb] at h
      exact ih (cycNext_mem hcyc hs) h

/-- Characterization of a breaker for a free target above the head and
outside the list: it is either the lower end of the straddling pair or the
top node of the arena. -/
theorem break_char {m : Mem} {S : List Nat}
    (hsort : S.Chain' (· < ·)) (hcyc : CycNext m S) {x t : Nat}
    (hhd : S.headD 0 < x) (ht : t ∈ S) (hb : Break m x t) :
    (∃ X v Y, S = X ++ t :: v :: Y ∧ t < x ∧ x < v) ∨
    (∃ X, S = X ++ [t] ∧ t < x) := by
  obtain ⟨X, Y, hS⟩ := List.append_of_mem ht
  cases hY : Y with
  | nil =>
    subst hY
    right
    have hnext : (m t).next = S.headD 0 := cycNext_last hcyc hS
    unfold Break at hb
    rw [hnext] at hb
    exact ⟨X, hS, by omega⟩
  | cons v Y' =>
    subst hY
    left
    have hnext : (m t).next = v := cycNext_pair hcyc hS
    have htv : t < v := by
      have h2 := hsort
      rw [hS, List.chain'_append_cons_cons] at h2
      exact h2.2.1
    unfold Break at hb
    rw [hnext] at hb
    exact ⟨X, v, Y', hS, by omega, by omega⟩

/-- Coalescing preservation, interior position, no merge on either side:
the freed block is linked between the straddling pair. -/
theorem coalesce_mid_nn {m : Mem} {brk toAdd u v : Nat} {X Y : List Nat}
    (hwfc : WFc m brk (X ++ u :: v :: Y))
    (hfo : FreeOK m brk (X ++ u :: v :: Y) toAdd)
    (hu : u < toAdd) (hv : toAdd < v)
    (hnup : toAdd + (m toAdd).size ≠ v) (hnlow : toAdd ≠ u + (m u).size) :
    u ∈ (X ++ u :: toAdd :: v :: Y) ∧
      WFc (updNext (updNext m toAdd v) u toAdd) brk
        (X ++ u :: toAdd :: v :: Y) := by
  obtain ⟨hne, hsort, hcyc, hnc, hbnd⟩ := hwfc
  obtain ⟨hsz, htA, hhd, hext, hdisj⟩ := hfo
  set m2 := updNext (updNext m toAdd v) u toAdd with hm2
  have hfr : ∀ a, a ≠ u → a ≠ toAdd → m2 a = m a := by
    intro a h1 h2
    simp [hm2, updNext_apply, h1, h2]
  have hm2u : m2 u = ⟨toAdd, (m u).size, (m u).tid⟩ := by
    simp [hm2, updNext_apply, show u ≠ toAdd by omega]
  have hm2t : m2 toAdd = ⟨v, (m toAdd).size, (m toAdd).tid⟩ := by
    simp [hm2, updNext_apply, show toAdd ≠ u by omega]
  have hsX := (chain'_break_at X u (v :: Y)).mp hsort
  have hvY : List.Chain' (· < ·) (v :: Y) := (List.chain'_cons.mp hsX.2).2
  have hXu : ∀ a ∈ X, a < u := sorted_concat_lt hsX.1
  have hYv : ∀ a ∈ Y, v < a := sorted_cons_lt hvY
  have hgap1 : u + (m u).size ≤ toAdd := by
    have := hdisj u (by simp); omega
  have hgap2 : toAdd + (m toAdd).size ≤ v := by
    have h1 := hdisj v (by simp)
    omega
  refine ⟨by simp, by simp, ?_, ⟨?_, ?_⟩, ?_, ?_⟩
  · rw [chain'_break_at X u (toAdd :: v :: Y)]
    exact ⟨hsX.1, List.chain'_cons.mpr ⟨by omega,
      List.chain'_cons.mpr ⟨hv, hvY⟩⟩⟩
  · rw [chain'_break_at X u (toAdd :: v :: Y)]
    constructor
    · have hold : List.Chain' (fun a b => (m a).next = b) (X ++ [u]) :=
        ((chain'_break_at X u (v :: Y)).mp hcyc.1).1
      refine chain'_mono_dropLast _ hold ?_
      intro a ha b hR
      rw [List.dropLast_concat] at ha
      have h1 := hXu a ha
      show (m2 a).next = b
      rw [hfr a (by omega) (by omega)]
      exact hR
    · refine List.chain'_cons.mpr ⟨?_, List.chain'_cons.mpr ⟨?_, ?_⟩⟩
      · show (m2 u).next = toAdd
        rw [hm2u]
      · show (m2 toAdd).next = v
        rw [hm2t]
      · have hold : List.Chain' (fun a b => (m a).next = b) (v :: Y) :=
          (List.chain'_cons.mp ((chain'_break_at X u (v :: Y)).mp hcyc.1).2).2
        refine chain'_mono_dropLast _ hold ?_
        intro a ha b hR
        have h3 : v ≤ a := sorted_head_le hvY (List.mem_of_mem_dropLast ha)
        show (m2 a).next = b
        rw [hfr a (by omega) (by omega)]
        exact hR
  · have hLs' : (X ++ u :: toAdd :: v :: Y).getLastD 0 = (v :: Y).getLastD 0 := by
      rw [show X ++ u :: toAdd :: v :: Y = (X ++ [u, toAdd]) ++ (v :: Y) by simp,
        getLastD_append_ne _ _ (by simp)]
    have hLs : (X ++ u :: v :: Y).getLastD 0 = (v :: Y).getLastD 0 := by
      rw [show X ++ u :: v :: Y = (X ++ [u]) ++ (v :: Y) by simp,
        getLastD_append_ne _ _ (by simp)]
    have hH : (X ++ u :: toAdd :: v :: Y).headD 0 = (X ++ u :: v :: Y).headD 0 := by
      cases X with
      | nil => rfl
      | cons a X' => rfl
    have hL : v ≤ (v :: Y).getLastD 0 :=
      sorted_head_le hvY (getLastD_mem (by simp))
    rw [hLs', hH, hfr _ (by omega) (by omega), ← hLs]
    exact hcyc.2
  · rw [chain'_break_at X u (toAdd :: v :: Y)]
    constructor
    · have hold : List.Chain' (fun a b => a + (m a).size < b) (X ++ [u]) :=
        ((chain'_break_at X u (v :: Y)).mp hnc).1
      refine chain'_mono_dropLast _ hold ?_
      intro a ha b hR
      rw [List.dropLast_concat] at ha
      have h1 := hXu a ha
      show a + (m2 a).size < b
      rw [hfr a (by omega) (by omega)]
      exact hR
    · refine List.chain'_cons.mpr ⟨?_, List.chain'_cons.mpr ⟨?_, ?_⟩⟩
      · show u + (m2 u).size < toAdd
        rw [hm2u]
        show u + (m u).size < toAdd
        omega
      · show toAdd + (m2 toAdd).size < v
        rw [hm2t]
        show toAdd + (m toAdd).size < v
        omega
      · have hold : List.Chain' (fun a b => a + (m a).size < b) (v :: Y) :=
          (List.chain'_cons.mp ((chain'_break_at X u (v :: Y)).mp hnc).2).2
        refine chain'_mono_dropLast _ hold ?_
        intro a ha b hR
        have h3 : v ≤ a := sorted_head_le hvY (List.mem_of_mem_dropLast ha)
        show a + (m2 a).size < b
        rw [hfr a (by omega) (by omega)]
        exact hR
  · intro a ha
    simp only [List.mem_append, List.mem_cons] at ha
    rcases ha with ha | ha | ha | ha | ha
    · have h1 := hXu a ha
      rw [hfr a (by omega) (by omega)]
      exact hbnd a (by simp [ha])
    · rw [ha, hm2u]
      show u < brk ∧ u + (m u).size ≤ brk
      exact hbnd u (by simp)
    · rw [ha, hm2t]
      show toAdd < brk ∧ toAdd + (m toAdd).size ≤ brk
      exact ⟨by omega, hext⟩
    · rw [ha, hfr v (by omega) (by omega)]
      exact hbnd v (by simp)
    · have h1 := hYv a ha
      rw [hfr a (by omega) (by omega)]
      exact hbnd a (by simp [ha])

/-- The head of an append with the same cons spine does not depend on the
tail. -/
theorem headD_append_cons_eq (X : List Nat) (u : Nat) (T U : List Nat) :
    (X ++ u :: T).headD 0 = (X ++ u :: U).headD 0 := by
  cases X with
  | nil => rfl
  | cons a X' => rfl

/-- Coalescing preservation, interior position, upper merge only: the
freed block absorbs its upper neighbour and replaces it in the list. -/
theorem coalesce_mid_un {m : Mem} {brk toAdd u v : Nat} {X Y : List Nat}
    (hwfc : WFc m brk (X ++ u :: v :: Y))
    (hfo : FreeOK m brk (X ++ u :: v :: Y) toAdd)
    (hu : u < toAdd) (hv : toAdd < v)
    (hup : toAdd + (m toAdd).size = v) (hnlow : toAdd ≠ u + (m u).size) :
    u ∈ (X ++ u :: toAdd :: Y) ∧
      WFc (updNext (updNext (updSize m toAdd ((m toAdd).size + (m v).size))
        toAdd ((m v).next)) u toAdd) brk (X ++ u :: toAdd :: Y) := by
  obtain ⟨hne, hsort, hcyc, hnc, hbnd⟩ := hwfc
  obtain ⟨hsz, htA, hhd, hext, hdisj⟩ := hfo
  set m2 := updNext (updNext (updSize m toAdd ((m toAdd).size + (m v).size))
    toAdd ((m v).next)) u toAdd with hm2
  have hfr : ∀ a, a ≠ u → a ≠ toAdd → m2 a = m a := by
    intro a h1 h2
    simp [hm2, updNext_apply, updSize_apply, h1, h2]
  have hm2u : m2 u = ⟨toAdd, (m u).size, (m u).tid⟩ := by
    simp [hm2, updNext_apply, updSize_apply, show u ≠ toAdd by omega]
  have hm2t : m2 toAdd =
      ⟨(m v).next, (m toAdd).size + (m v).size, (m toAdd).tid⟩ := by
    simp [hm2, updNext_apply, updSize_apply, show toAdd ≠ u by omega]
  have hsX := (chain'_break_at X u (v :: Y)).mp hsort
  have hvY : List.Chain' (· < ·) (v :: Y) := (List.chain'_cons.mp hsX.2).2
  have hXu : ∀ a ∈ X, a < u := sorted_concat_lt hsX.1
  have hYv : ∀ a ∈ Y, v < a := sorted_cons_lt hvY
  have hgap1 : u + (m u).size ≤ toAdd := by
    have := hdisj u (by simp); omega
  have hbv := hbnd v (by simp)
  cases Y with
  | nil =>
    have hnl : (m v).next = (X ++ u :: v :: []).headD 0 :=
      cycNext_last hcyc (show X ++ u :: v :: [] = (X ++ [u]) ++ [v] by simp)
    refine ⟨by simp, by simp, ?_, ⟨?_, ?_⟩, ?_, ?_⟩
    · rw [chain'_break_at X u [toAdd]]
      exact ⟨hsX.1, List.chain'_cons.mpr ⟨by omega, List.chain'_singleton _⟩⟩
    · rw [chain'_break_at X u [toAdd]]
      constructor
      · have hold : List.Chain' (fun a b => (m a).next = b) (X ++ [u]) :=
          ((chain'_break_at X u (v :: [])).mp hcyc.1).1
        refine chain'_mono_dropLast _ hold ?_
        intro a ha b hR
        rw [List.dropLast_concat] at ha
        have h1 := hXu a ha
        show (m2 a).next = b
        rw [hfr a (by omega) (by omega)]
        exact hR
      · refine List.chain'_cons.mpr ⟨?_, List.chain'_singleton _⟩
        show (m2 u).next = toAdd
        rw [hm2u]
    · have hLs' : (X ++ u :: toAdd :: []).getLastD 0 = toAdd := by
        rw [show X ++ u :: toAdd :: [] = (X ++ [u]) ++ [toAdd] by simp,
          List.getLastD_concat]
      rw [hLs', headD_append_cons_eq X u [toAdd] [v]]
      show (m2 toAdd).next = (X ++ u :: v :: []).headD 0
      rw [hm2t]
      exact hnl
    · rw [chain'_break_at X u [toAdd]]
      constructor
      · have hold : List.Chain' (fun a b => a + (m a).size < b) (X ++ [u]) :=
          ((chain'_break_at X u (v :: [])).mp hnc).1
        refine chain'_mono_dropLast _ hold ?_
        intro a ha b hR
        rw [List.dropLast_concat] at ha
        have h1 := hXu a ha
        show a + (m2 a).size < b
        rw [hfr a (by omega) (by omega)]
        exact hR
      · refine List.chain'_cons.mpr ⟨?_, List.chain'_singleton _⟩
        show u + (m2 u).size < toAdd
        rw [hm2u]
        show u + (m u).size < toAdd
        omega
    · intro a ha
      simp only [List.mem_append, List.mem_cons, List.not_mem_nil,
        or_false] at ha
      rcases ha with ha | ha | ha
      · have h1 := hXu a ha
        rw [hfr a (by omega) (by omega)]
        exact hbnd a (by simp [ha])
      · rw [ha, hm2u]
        show u < brk ∧ u + (m u).size ≤ brk
        exact hbnd u (by simp)
      · rw [ha, hm2t]
        show toAdd < brk ∧ toAdd + ((m toAdd).size + (m v).size) ≤ brk
        omega
  | cons y Y' =>
    have hvy : (m v).next = y := cycNext_pair hcyc
      (show X ++ u :: v :: y :: Y' = (X ++ [u]) ++ v :: y :: Y' by simp)
    have hyY : List.Chain' (· < ·) (y :: Y') := (List.chain'_cons.mp hvY).2
    have hvny : v + (m v).size < y := by
      have h2 := ((chain'_break_at X u (v :: y :: Y')).mp hnc).2
      exact (List.chain'_cons.mp (List.chain'_cons.mp h2).2).1
    refine ⟨by simp, by simp, ?_, ⟨?_, ?_⟩, ?_, ?_⟩
    · rw [chain'_break_at X u (toAdd :: y :: Y')]
      refine ⟨hsX.1, List.chain'_cons.mpr ⟨by omega,
        List.chain'_cons.mpr ⟨?_, hyY⟩⟩⟩
      have := hYv y (by simp)
      omega
    · rw [chain'_break_at X u (toAdd :: y :: Y')]
      constructor
      · have hold : List.Chain' (fun a b => (m a).next = b) (X ++ [u]) :=
          ((chain'_break_at X u (v :: y :: Y')).mp hcyc.1).1
        refine chain'_mono_dropLast _ hold ?_
        intro a ha b hR
        rw [List.dropLast_concat] at ha
        have h1 := hXu a ha
        show (m2 a).next = b
        rw [hfr a (by omega) (by omega)]
        exact hR
      · refine List.chain'_cons.mpr ⟨?_, List.chain'_cons.mpr ⟨?_, ?_⟩⟩
        · show (m2 u).next = toAdd
          rw [hm2u]
        · show (m2 toAdd).next = y
          rw [hm2t]
          exact hvy
        · have hold : List.Chain' (fun a b => (m a).next = b) (y :: Y') :=
            (List.chain'_cons.mp (List.chain'_cons.mp
              ((chain'_break_at X u (v :: y :: Y')).mp hcyc.1).2).2).2
          refine chain'_mono_dropLast _ hold ?_
          intro a ha b hR
          have h3 : y ≤ a := sorted_head_le hyY (List.mem_of_mem_dropLast ha)
          have h4 := hYv y (by simp)
          show (m2 a).next = b
          rw [hfr a (by omega) (by omega)]
          exact hR
    · have hLs' : (X ++ u :: toAdd :: y :: Y').getLastD 0 =
          (y :: Y').getLastD 0 := by
        rw [show X ++ u :: toAdd :: y :: Y' = (X ++ [u, toAdd]) ++ (y :: Y')
          by simp, getLastD_append_ne _ _ (by simp)]
      have hLs : (X ++ u :: v :: y :: Y').getLastD 0 =
          (y :: Y').getLastD 0 := by
        rw [show X ++ u :: v :: y :: Y' = (X ++ [u, v]) ++ (y :: Y')
          by simp, getLastD_append_ne _ _ (by simp)]
      have hL : y ≤ (y :: Y').getLastD 0 :=
        sorted_head_le hyY (getLastD_mem (by simp))
      have h4 := hYv y (by simp)
      rw [hLs', headD_append_cons_eq X u (toAdd :: y :: Y') (v :: y :: Y'),
        hfr _ (by omega) (by omega), ← hLs]
      exact hcyc.2
    · rw [chain'_break_at X u (toAdd :: y :: Y')]
      constructor
      · have hold : List.Chain' (fun a b => a + (m a).size < b) (X ++ [u]) :=
          ((chain'_break_at X u (v :: y :: Y')).mp hnc).1
        refine chain'_mono_dropLast _ hold ?_
        intro a ha b hR
        rw [List.dropLast_concat] at ha
        have h1 := hXu a ha
        show a + (m2 a).size < b
        rw [hfr a (by omega) (by omega)]
        exact hR
      · refine List.chain'_cons.mpr ⟨?_, List.chain'_cons.mpr ⟨?_, ?_⟩⟩
        · show u + (m2 u).size < toAdd
          rw [hm2u]
          show u + (m u).size < toAdd
          omega
        · show toAdd + (m2 toAdd).size < y
          rw [hm2t]
          show toAdd + ((m toAdd).size + (m v).size) < y
          omega
        · have hold : List.Chain' (fun a b => a + (m a).size < b) (y :: Y') :=
            (List.chain'_cons.mp (List.chain'_cons.mp
              ((chain'_break_at X u (v :: y :: Y')).mp hnc).2).2).2
          refine chain'_mono_dropLast _ hold ?_
          intro a ha b hR
          have h3 : y ≤ a := sorted_head_le hyY (List.mem_of_mem_dropLast ha)
          have h4 := hYv y (by simp)
          show a + (m2 a).size < b
          rw [hfr a (by omega) (by omega)]
          exact hR
    · intro a ha
      simp only [List.mem_append, List.mem_cons] at ha
      rcases ha with ha | ha | ha | ha | ha
      · have h1 := hXu a ha
        rw [hfr a (by omega) (by omega)]
        exact hbnd a (by simp [ha])
      · rw [ha, hm2u]
        show u < brk ∧ u + (m u).size ≤ brk
        exact hbnd u (by simp)
      · rw [ha, hm2t]
        show toAdd < brk ∧ toAdd + ((m toAdd).size + (m v).size) ≤ brk
        omega
      · have h1 := hYv y (by simp)
        rw [ha, hfr y (by omega) (by omega)]
        exact hbnd y (by simp)
      · have h1 := hYv a (by simp [ha])
        rw [hfr a (by omega) (by omega)]
        exact hbnd a (by simp [ha])

/-- Coalescing preservation, interior position, lower merge only: the
lower straddling node absorbs the freed block in place. -/
theorem coalesce_mid_nl {m : Mem} {brk toAdd u v : Nat} {X Y : List Nat}
    (hwfc : WFc m brk (X ++ u :: v :: Y))
    (hfo : FreeOK m brk (X ++ u :: v :: Y) toAdd)
    (hu : u < toAdd) (hv : toAdd < v)
    (hnup : toAdd + (m toAdd).size ≠ v) (hlow : toAdd = u + (m u).size) :
    u ∈ (X ++ u :: v :: Y) ∧
      WFc (updNext (updSize (updNext m toAdd v) u
        ((m u).size + (m toAdd).size)) u v) brk (X ++ u :: v :: Y) := by
  obtain ⟨hne, hsort, hcyc, hnc, hbnd⟩ := hwfc
  obtain ⟨hsz, htA, hhd, hext, hdisj⟩ := hfo
  set m2 := updNext (updSize (updNext m toAdd v) u
    ((m u).size + (m toAdd).size)) u v with hm2
  have hfr : ∀ a, a ≠ u → a ≠ toAdd → m2 a = m a := by
    intro a h1 h2
    simp [hm2, updNext_apply, updSize_apply, h1, h2]
  have hm2u : m2 u = ⟨v, (m u).size + (m toAdd).size, (m u).tid⟩ := by
    simp [hm2, updNext_apply, updSize_apply, show u ≠ toAdd by omega]
  have hsX := (chain'_break_at X u (v :: Y)).mp hsort
  have hvY : List.Chain' (· < ·) (v :: Y) := (List.chain'_cons.mp hsX.2).2
  have hXu : ∀ a ∈ X, a < u := sorted_concat_lt hsX.1
  have hYv : ∀ a ∈ Y, v < a := sorted_cons_lt hvY
  have hgap2 : toAdd + (m toAdd).size ≤ v := by
    have h1 := hdisj v (by simp)
    omega
  refine ⟨by simp, by simp, ?_, ⟨?_, ?_⟩, ?_, ?_⟩
  · exact hsort
  · rw [chain'_break_at X u (v :: Y)]
    constructor
    · have hold : List.Chain' (fun a b => (m a).next = b) (X ++ [u]) :=
        ((chain'_break_at X u (v :: Y)).mp hcyc.1).1
      refine chain'_mono_dropLast _ hold ?_
      intro a ha b hR
      rw [List.dropLast_concat] at ha
      have h1 := hXu a ha
      show (m2 a).next = b
      rw [hfr a (by omega) (by omega)]
      exact hR
    · refine List.chain'_cons.mpr ⟨?_, ?_⟩
      · show (m2 u).next = v
        rw [hm2u]
      · have hold : List.Chain' (fun a b => (m a).next = b) (v :: Y) :=
          (List.chain'_cons.mp ((chain'_break_at X u (v :: Y)).mp hcyc.1).2).2
        refine chain'_mono_dropLast _ hold ?_
        intro a ha b hR
        have h3 : v ≤ a := sorted_head_le hvY (List.mem_of_mem_dropLast ha)
        show (m2 a).next = b
        rw [hfr a (by omega) (by omega)]
        exact hR
  · have hLs : (X ++ u :: v :: Y).getLastD 0 = (v :: Y).getLastD 0 := by
      rw [show X ++ u :: v :: Y = (X ++ [u]) ++ (v :: Y) by simp,
        getLastD_append_ne _ _ (by simp)]
    have hL : v ≤ (v :: Y).getLastD 0 :=
      sorted_head_le hvY (getLastD_mem (by simp))
    rw [hLs, hfr _ (by omega) (by omega), ← hLs]
    exact hcyc.2
  · rw [chain'_break_at X u (v :: Y)]
    constructor
    · have hold : List.Chain' (fun a b => a + (m a).size < b) (X ++ [u]) :=
        ((chain'_break_at X u (v :: Y)).mp hnc).1
      refine chain'_mono_dropLast _ hold ?_
      intro a ha b hR
      rw [List.dropLast_concat] at ha
      have h1 := hXu a ha
      show a + (m2 a).size < b
      rw [hfr a (by omega) (by omega)]
      exact hR
    · refine List.chain'_cons.mpr ⟨?_, ?_⟩
      · show u + (m2 u).size < v
        rw [hm2u]
        show u + ((m u).size + (m toAdd).size) < v
        omega
      · have hold : List.Chain' (fun a b => a + (m a).size < b) (v :: Y) :=
          (List.chain'_cons.mp ((chain'_break_at X u (v :: Y)).mp hnc).2).2
        refine chain'_mono_dropLast _ hold ?_
        intro a ha b hR
        have h3 : v ≤ a := sorted_head_le hvY (List.mem_of_mem_dropLast ha)
        show a + (m2 a).size < b
        rw [hfr a (by omega) (by omega)]
        exact hR
  · intro a ha
    simp only [List.mem_append, List.mem_cons] at ha
    rcases ha with ha | ha | ha | ha
    · have h1 := hXu a ha
      rw [hfr a (by omega) (by omega)]
      exact hbnd a (by simp [ha])
    · rw [ha, hm2u]
      show u < brk ∧ u + ((m u).size + (m toAdd).size) ≤ brk
      have h1 := hbnd u (by simp)
      omega
    · rw [ha, hfr v (by omega) (by omega)]
      exact hbnd v (by simp)
    · have h1 := hYv a ha
      rw [hfr a (by omega) (by omega)]
      exact hbnd a (by simp [ha])

/-- Coalescing preservation, interior position, merge on both sides: the
lower node absorbs the freed block and the upper neighbour, which leaves
the list. -/
theorem coalesce_mid_ul {m : Mem} {brk toAdd u v : Nat} {X Y : List Nat}
    (hwfc : WFc m brk (X ++ u :: v :: Y))
    (hfo : FreeOK m brk (X ++ u :: v :: Y) toAdd)
    (hu : u < toAdd) (hv : toAdd < v)
    (hup : toAdd + (m toAdd).size = v) (hlow : toAdd = u + (m u).size) :
    u ∈ (X ++ u :: Y) ∧
      WFc (updNext (updSize (updNext (updSize m toAdd
          ((m toAdd).size + (m v).size)) toAdd ((m v).next)) u
        ((m u).size + ((m toAdd).size + (m v).size))) u ((m v).next)) brk
        (X ++ u :: Y) := by
  obtain ⟨hne, hsort, hcyc, hnc, hbnd⟩ := hwfc
  obtain ⟨hsz, htA, hhd, hext, hdisj⟩ := hfo
  set m2 := updNext (updSize (updNext (updSize m toAdd
      ((m toAdd).size + (m v).size)) toAdd ((m v).next)) u
    ((m u).size + ((m toAdd).size + (m v).size))) u ((m v).next) with hm2
  have hfr : ∀ a, a ≠ u → a ≠ toAdd → m2 a = m a := by
    intro a h1 h2
    simp [hm2, updNext_apply, updSize_apply, h1, h2]
  have hm2u : m2 u = ⟨(m v).next,
      (m u).size + ((m toAdd).size + (m v).size), (m u).tid⟩ := by
    simp [hm2, updNext_apply, updSize_apply, show u ≠ toAdd by omega]
  have hsX := (chain'_break_at X u (v :: Y)).mp hsort
  have hvY : List.Chain' (· < ·) (v :: Y) := (List.chain'_cons.mp hsX.2).2
  have hXu : ∀ a ∈ X, a < u := sorted_concat_lt hsX.1
  have hYv : ∀ a ∈ Y, v < a := sorted_cons_lt hvY
  have hbv := hbnd v (by simp)
  cases Y with
  | nil =>
    have hnl : (m v).next = (X ++ u :: v :: []).headD 0 :=
      cycNext_last hcyc (show X ++ u :: v :: [] = (X ++ [u]) ++ [v] by simp)
    refine ⟨by simp, by simp, ?_, ⟨?_, ?_⟩, ?_, ?_⟩
    · exact hsX.1
    · have hold : List.Chain' (fun a b => (m a).next = b) (X ++ [u]) :=
        ((chain'_break_at X u (v :: [])).mp hcyc.1).1
      refine chain'_mono_dropLast _ hold ?_
      intro a ha b hR
      rw [List.dropLast_concat] at ha
      have h1 := hXu a ha
      show (m2 a).next = b
      rw [hfr a (by omega) (by omega)]
      exact hR
    · have hLs' : (X ++ u :: []).getLastD 0 = u := by
        rw [show X ++ u :: [] = X ++ [u] by simp, List.getLastD_concat]
      rw [hLs', headD_append_cons_eq X u [] [v]]
      show (m2 u).next = (X ++ u :: v :: []).headD 0
      rw [hm2u]
      exact hnl
    · have hold : List.Chain' (fun a b => a + (m a).size < b) (X ++ [u]) :=
        ((chain'_break_at X u (v :: [])).mp hnc).1
      refine chain'_mono_dropLast _ hold ?_
      intro a ha b hR
      rw [List.dropLast_concat] at ha
      have h1 := hXu a ha
      show a + (m2 a).size < b
      rw [hfr a (by omega) (by omega)]
      exact hR
    · intro a ha
      simp only [List.mem_append, List.mem_cons, List.not_mem_nil,
        or_false] at ha
      rcases ha with ha | ha
      · have h1 := hXu a ha
        rw [hfr a (by omega) (by omega)]
        exact hbnd a (by simp [ha])
      · rw [ha, hm2u]
        show u < brk ∧ u + ((m u).size + ((m toAdd).size + (m v).size)) ≤ brk
        have h1 := hbnd u (by simp)
        omega
  | cons y Y' =>
    have hvy : (m v).next = y := cycNext_pair hcyc
      (show X ++ u :: v :: y :: Y' = (X ++ [u]) ++ v :: y :: Y' by simp)
    have hyY : List.Chain' (· < ·) (y :: Y') := (List.chain'_cons.mp hvY).2
    have hvny : v + (m v).size < y := by
      have h2 := ((chain'_break_at X u (v :: y :: Y')).mp hnc).2
      exact (List.chain'_cons.mp (List.chain'_cons.mp h2).2).1
    refine ⟨by simp, by simp, ?_, ⟨?_, ?_⟩, ?_, ?_⟩
    · rw [chain'_break_at X u (y :: Y')]
      refine ⟨hsX.1, List.chain'_cons.mpr ⟨?_, hyY⟩⟩
      have := hYv y (by simp)
      omega
    · rw [chain'_break_at X u (y :: Y')]
      constructor
      · have hold : List.Chain' (fun a b => (m a).next = b) (X ++ [u]) :=
          ((chain'_break_at X u (v :: y :: Y')).mp hcyc.1).1
        refine chain'_mono_dropLast _ hold ?_
        intro a ha b hR
        rw [List.dropLast_concat] at ha
        have h1 := hXu a ha
        show (m2 a).next = b
        rw [hfr a (by omega) (by omega)]
        exact hR
      · refine List.chain'_cons.mpr ⟨?_, ?_⟩
        · show (m2 u).next = y
          rw [hm2u]
          exact hvy
        · have hold : List.Chain' (fun a b => (m a).next = b) (y :: Y') :=
            (List.chain'_cons.mp (List.chain'_cons.mp
              ((chain'_break_at X u (v :: y :: Y')).mp hcyc.1).2).2).2
          refine chain'_mono_dropLast _ hold ?_
          intro a ha b hR
          have h3 : y ≤ a := sorted_head_le hyY (List.mem_of_mem_dropLast ha)
          have h4 := hYv y (by simp)
          show (m2 a).next = b
          rw [hfr a (by omega) (by omega)]
          exact hR
    · have hLs' : (X ++ u :: y :: Y').getLastD 0 = (y :: Y').getLastD 0 := by
        rw [show X ++ u :: y :: Y' = (X ++ [u]) ++ (y :: Y') by simp,
          getLastD_append_ne _ _ (by simp)]
      have hLs : (X ++ u :: v :: y :: Y').getLastD 0 =
          (y :: Y').getLastD 0 := by
        rw [show X ++ u :: v :: y :: Y' = (X ++ [u, v]) ++ (y :: Y')
          by simp, getLastD_append_ne _ _ (by simp)]
      have hL : y ≤ (y :: Y').getLastD 0 :=
        sorted_head_le hyY (getLastD_mem (by simp))
      have h4 := hYv y (by simp)
      rw [hLs', headD_append_cons_eq X u (y :: Y') (v :: y :: Y'),
        hfr _ (by omega) (by omega), ← hLs]
      exact hcyc.2
    · rw [chain'_break_at X u (y :: Y')]
      constructor
      · have hold : List.Chain' (fun a b => a + (m a).size < b) (X ++ [u]) :=
          ((chain'_break_at X u (v :: y :: Y')).mp hnc).1
        refine chain'_mono_dropLast _ hold ?_
        intro a ha b hR
        rw [List.dropLast_concat] at ha
        have h1 := hXu a ha
        show a + (m2 a).size < b
        rw [hfr a (by omega) (by omega)]
        exact hR
      · refine List.chain'_cons.mpr ⟨?_, ?_⟩
        · show u + (m2 u).size < y
          rw [hm2u]
          show u + ((m u).size + ((m toAdd).size + (m v).size)) < y
          omega
        · have hold : List.Chain' (fun a b => a + (m a).size < b) (y :: Y') :=
            (List.chain'_cons.mp (List.chain'_cons.mp
              ((chain'_break_at X u (v :: y :: Y')).mp hnc).2).2).2
          refine chain'_mono_dropLast _ hold ?_
          intro a ha b hR
          have h3 : y ≤ a := sorted_head_le hyY (List.mem_of_mem_dropLast ha)
          have h4 := hYv y (by simp)
          show a + (m2 a).size < b
          rw [hfr a (by omega) (by omega)]
          exact hR
    · intro a ha
      simp only [List.mem_append, List.mem_cons] at ha
      rcases ha with ha | ha | ha | ha
      · have h1 := hXu a ha
        rw [hfr a (by omega) (by omega)]
        exact hbnd a (by simp [ha])
      · rw [ha, hm2u]
        show u < brk ∧ u + ((m u).size + ((m toAdd).size + (m v).size)) ≤ brk
        have h1 := hbnd u (by simp)
        omega
      · have h1 := hYv y (by simp)
        rw [ha, hfr y (by omega) (by omega)]
        exact hbnd y (by simp)
      · have h1 := hYv a (by simp [ha])
        rw [hfr a (by omega) (by omega)]
        exact hbnd a (by simp [ha])

/-- Coalescing preservation at the top of the arena, no lower merge: the
freed block becomes the new highest node. -/
theorem coalesce_top_nn {m : Mem} {brk toAdd u : Nat} {X : List Nat}
    (hwfc : WFc m brk (X ++ [u])) (hfo : FreeOK m brk (X ++ [u]) toAdd)
    (hu : u < toAdd) (hnlow : toAdd ≠ u + (m u).size) :
    u ∈ (X ++ u :: [toAdd]) ∧
      WFc (updNext (updNext m toAdd ((m u).next)) u toAdd) brk
        (X ++ u :: [toAdd]) := by
  obtain ⟨hne, hsort, hcyc, hnc, hbnd⟩ := hwfc
  obtain ⟨hsz, htA, hhd, hext, hdisj⟩ := hfo
  have hnl : (m u).next = (X ++ [u]).headD 0 := cycNext_last hcyc rfl
  set m2 := updNext (updNext m toAdd ((m u).next)) u toAdd with hm2
  have hfr : ∀ a, a ≠ u → a ≠ toAdd → m2 a = m a := by
    intro a h1 h2
    simp [hm2, updNext_apply, h1, h2]
  have hm2u : m2 u = ⟨toAdd, (m u).size, (m u).tid⟩ := by
    simp [hm2, updNext_apply, show u ≠ toAdd by omega]
  have hm2t : m2 toAdd = ⟨(m u).next, (m toAdd).size, (m toAdd).tid⟩ := by
    simp [hm2, updNext_apply, show toAdd ≠ u by omega]
  have hXu : ∀ a ∈ X, a < u := sorted_concat_lt hsort
  have hgap1 : u + (m u).size ≤ toAdd := by
    have := hdisj u (by simp); omega
  refine ⟨by simp, by simp, ?_, ⟨?_, ?_⟩, ?_, ?_⟩
  · rw [chain'_break_at X u [toAdd]]
    exact ⟨hsort, List.chain'_cons.mpr ⟨by omega, List.chain'_singleton _⟩⟩
  · rw [chain'_break_at X u [toAdd]]
    constructor
    · refine chain'_mono_dropLast _ hcyc.1 ?_
      intro a ha b hR
      rw [List.dropLast_concat] at ha
      have h1 := hXu a ha
      show (m2 a).next = b
      rw [hfr a (by omega) (by omega)]
      exact hR
    · refine List.chain'_cons.mpr ⟨?_, List.chain'_singleton _⟩
      show (m2 u).next = toAdd
      rw [hm2u]
  · have hLs' : (X ++ u :: [toAdd]).getLastD 0 = toAdd := by
      rw [show X ++ u :: [toAdd] = (X ++ [u]) ++ [toAdd] by simp,
        List.getLastD_concat]
    rw [hLs', headD_append_cons_eq X u [toAdd] []]
    show (m2 toAdd).next = (X ++ [u]).headD 0
    rw [hm2t]
    exact hnl
  · rw [chain'_break_at X u [toAdd]]
    constructor
    · refine chain'_mono_dropLast _ hnc ?_
      intro a ha b hR
      rw [List.dropLast_concat] at ha
      have h1 := hXu a ha
      show a + (m2 a).size < b
      rw [hfr a (by omega) (by omega)]
      exact hR
    · refine List.chain'_cons.mpr ⟨?_, List.chain'_singleton _⟩
      show u + (m2 u).size < toAdd
      rw [hm2u]
      show u + (m u).size < toAdd
      omega
  · intro a ha
    simp only [List.mem_append, List.mem_cons, List.not_mem_nil,
      or_false] at ha
    rcases ha with ha | ha | ha
    · have h1 := hXu a ha
      rw [hfr a (by omega) (by omega)]
      exact hbnd a (by simp [ha])
    · rw [ha, hm2u]
      show u < brk ∧ u + (m u).size ≤ brk
      exact hbnd u (by simp)
    · rw [ha, hm2t]
      show toAdd < brk ∧ toAdd + (m toAdd).size ≤ brk
      exact ⟨by omega, hext⟩

/-- Coalescing preservation at the top of the arena with lower merge: the
highest node absorbs the freed block in place. -/
theorem coalesce_top_nl {m : Mem} {brk toAdd u : Nat} {X : List Nat}
    (hwfc : WFc m brk (X ++ [u])) (hfo : FreeOK m brk (X ++ [u]) toAdd)
    (hu : u < toAdd) (hlow : toAdd = u + (m u).size) :
    u ∈ (X ++ [u]) ∧
      WFc (updNext (updSize (updNext m toAdd ((m u).next)) u
        ((m u).size + (m toAdd).size)) u ((m u).next)) brk (X ++ [u]) := by
  obtain ⟨hne, hsort, hcyc, hnc, hbnd⟩ := hwfc
  obtain ⟨hsz, htA, hhd, hext, hdisj⟩ := hfo
  have hnl : (m u).next = (X ++ [u]).headD 0 := cycNext_last hcyc rfl
  set m2 := updNext (updSize (updNext m toAdd ((m u).next)) u
    ((m u).size + (m toAdd).size)) u ((m u).next) with hm2
  have hfr : ∀ a, a ≠ u → a ≠ toAdd → m2 a = m a := by
    intro a h1 h2
    simp [hm2, updNext_apply, updSize_apply, h1, h2]
  have hm2u : m2 u = ⟨(m u).next, (m u).size + (m toAdd).size, (m u).tid⟩ := by
    simp [hm2, updNext_apply, updSize_apply, show u ≠ toAdd by omega]
  have hXu : ∀ a ∈ X, a < u := sorted_concat_lt hsort
  refine ⟨by simp, by simp, ?_, ⟨?_, ?_⟩, ?_, ?_⟩
  · exact hsort
  · refine chain'_mono_dropLast _ hcyc.1 ?_
    intro a ha b hR
    rw [List.dropLast_concat] at ha
    have h1 := hXu a ha
    show (m2 a).next = b
    rw [hfr a (by omega) (by omega)]
    exact hR
  · rw [List.getLastD_concat]
    show (m2 u).next = (X ++ [u]).headD 0
    rw [hm2u]
    exact hnl
  · refine chain'_mono_dropLast _ hnc ?_
    intro a ha b hR
    rw [List.dropLast_concat] at ha
    have h1 := hXu a ha
    show a + (m2 a).size < b
    rw [hfr a (by omega) (by omega)]
    exact hR
  · intro a ha
    simp only [List.mem_append, List.mem_cons, List.not_mem_nil,
      or_false] at ha
    rcases ha with ha | ha
    · have h1 := hXu a ha
      rw [hfr a (by omega) (by omega)]
      exact hbnd a (by simp [ha])
    · rw [ha, hm2u]
      show u < brk ∧ u + ((m u).size + (m toAdd).size) ≤ brk
      have h1 := hbnd u (by simp)
      omega

/-- Definitional unfolding of the memory produced by `coalescing_blocks`. -/
theorem coalescing_blocks_fst (m : Mem) (toAdd block : Nat) :
    (coalescing_blocks m toAdd block).1 =
      (let m1 :=
        if toAdd + (m toAdd).size = (m block).next then
          updNext
            (updSize m toAdd ((m toAdd).size + (m ((m block).next)).size))
            toAdd ((m ((m block).next)).next)
        else updNext m toAdd ((m block).next)
      if toAdd = block + (m1 block).size then
        updNext (updSize m1 block ((m1 block).size + (m1 toAdd).size))
          block ((m1 toAdd).next)
      else updNext m1 block toAdd) := rfl

/-- Well-formedness is preserved by the coalescing insertion at any
breaker node of a well-formed arena, for any valid freed block. -/
theorem coalesce_wf {m : Mem} {brk toAdd t : Nat} {S : List Nat}
    (hwfc : WFc m brk S) (hfo : FreeOK m brk S toAdd)
    (ht : t ∈ S) (hb : Break m toAdd t) :
    ∃ S', t ∈ S' ∧ WFc (coalescing_blocks m toAdd t).1 brk S' := by
  rcases break_char hwfc.2.1 hwfc.2.2.1 hfo.2.2.1 ht hb with
    ⟨X, v, Y, hS, h1, h2⟩ | ⟨X, hS, h1⟩
  · subst hS
    have hnet : t ≠ toAdd := by omega
    have hnuv : (m t).next = v := cycNext_pair hwfc.2.2.1 rfl
    rw [coalescing_blocks_fst, hnuv]
    by_cases hup : toAdd + (m toAdd).size = v
    · rw [if_pos hup]
      simp only [updNext_apply, updSize_apply, hnet, eq_self_iff_true,
        if_true, if_false]
      by_cases hlow : toAdd = t + (m t).size
      · rw [if_pos hlow]
        exact ⟨_, coalesce_mid_ul hwfc hfo h1 h2 hup hlow⟩
      · rw [if_neg hlow]
        exact ⟨_, coalesce_mid_un hwfc hfo h1 h2 hup hlow⟩
    · rw [if_neg hup]
      simp only [updNext_apply, updSize_apply, hnet, eq_self_iff_true,
        if_true, if_false]
      by_cases hlow : toAdd = t + (m t).size
      · rw [if_pos hlow]
        exact ⟨_, coalesce_mid_nl hwfc hfo h1 h2 hup hlow⟩
      · rw [if_neg hlow]
        exact ⟨_, coalesce_mid_nn hwfc hfo h1 h2 hup hlow⟩
  · subst hS
    have hnet : t ≠ toAdd := by omega
    have hnl : (m t).next = (X ++ [t]).headD 0 :=
      cycNext_last hwfc.2.2.1 rfl
    have hup : toAdd + (m toAdd).size ≠ (m t).next := by
      have hhd := sorted_head_le hwfc.2.1 ht
      have hsz := hfo.1
      rw [hnl]
      omega
    rw [coalescing_blocks_fst, if_neg hup]
    simp only [updNext_apply, updSize_apply, hnet, eq_self_iff_true,
      if_true, if_false]
    by_cases hlow : toAdd = t + (m t).size
    · rw [if_pos hlow]
      exact ⟨_, coalesce_top_nl hwfc hfo h1 hlow⟩
    · rw [if_neg hlow]
      exact ⟨_, coalesce_top_nn hwfc hfo h1 hlow⟩

/-- A successful `insert_free_list` on a well-formed arena with a valid
freed block yields a well-formed arena entered at the returned node. -/
theorem insert_done_wf {self ptr f fuel : Nat} {m : Mem} {brk : Nat}
    {S : List Nat} (hf : f ∈ S) (hwfc : WFc m brk S)
    (hfo : FreeOK m brk S (ptr - 1)) {m2 : Mem} {f2 : Nat}
    (hdone : insert_free_list self ptr f m fuel = .done m2 f2) :
    ∃ S', f2 ∈ S' ∧ WFc m2 brk S' := by
  simp only [insert_free_list] at hdone
  by_cases htid : (m (ptr - 1)).tid ≠ self
  · rw [if_pos htid] at hdone
    simp at hdone
  · rw [if_neg htid] at hdone
    cases hl : insLoop m (ptr - 1) fuel f with
    | none =>
      rw [hl] at hdone
      simp at hdone
    | some temp =>
      rw [hl] at hdone
      obtain ⟨htm, hbk⟩ := insLoop_some_mem hwfc.2.2.1 hf hl
      obtain ⟨S', hmem, hwf'⟩ := coalesce_wf hwfc hfo htm hbk
      simp only [InsOut.done.injEq] at hdone
      obtain ⟨hm2, hf2⟩ := hdone
      subst hm2
      subst hf2
      exact ⟨S', hmem, hwf'⟩

/-- `ts_free_lock` preserves well-formedness: on an arena entered at a
node, any free call — dropped, fuel-starved or inserted — leaves a
well-formed arena behind, provided a tag-matching freed pointer satisfies
the free contract. -/
theorem ts_free_lock_wf {self p fuel : Nat} {st : St} {S : List Nat}
    {f : Nat} (hfl : st.fl = some f) (hwf : WF st.mem f st.brk S)
    (hok : (st.mem (p - 1)).tid = self → FreeOK st.mem st.brk S (p - 1)) :
    ∃ S' f', (ts_free_lock self p fuel st).2.fl = some f' ∧
      WF (ts_free_lock self p fuel st).2.mem f'
        (ts_free_lock self p fuel st).2.brk S' := by
  simp only [ts_free_lock, hfl]
  cases hins : insert_free_list self p f st.mem fuel with
  | out => exact ⟨S, f, hfl, hwf⟩
  | unchanged => exact ⟨S, f, hfl, hwf⟩
  | done m2 f2 =>
    have htid : (st.mem (p - 1)).tid = self := by
      by_contra hne
      simp [insert_free_list, hne] at hins
    obtain ⟨S', hf2, hwfc'⟩ := insert_done_wf hwf.1 hwf.2 (hok htid) hins
    exact ⟨S', f2, rfl, hf2, hwfc'⟩

/-- `ts_free_nolock` preserves well-formedness, as `ts_free_lock` does:
the two bodies perform the identical list operation. -/
theorem ts_free_nolock_wf {self p fuel : Nat} {st : St} {S : List Nat}
    {f : Nat} (hfl : st.fl = some f) (hwf : WF st.mem f st.brk S)
    (hok : (st.mem (p - 1)).tid = self → FreeOK st.mem st.brk S (p - 1)) :
    ∃ S' f', (ts_free_nolock self p fuel st).2.fl = some f' ∧
      WF (ts_free_nolock self p fuel st).2.mem f'
        (ts_free_nolock self p fuel st).2.brk S' := by
  simp only [ts_free_nolock, hfl]
  cases hins : insert_free_list self p f st.mem fuel with
  | out => exact ⟨S, f, hfl, hwf⟩
  | unchanged => exact ⟨S, f, hfl, hwf⟩
  | done m2 f2 =>
    have htid : (st.mem (p - 1)).tid = self := by
      by_contra hne
      simp [insert_free_list, hne] at hins
    obtain ⟨S', hf2, hwfc'⟩ := insert_done_wf hwf.1 hwf.2 (hok htid) hins
    exact ⟨S', f2, rfl, hf2, hwfc'⟩

/-- Weak soundness of the search loop, valid for any fuel: whatever exits
the loop names nodes of the arena in the correct predecessor relation. -/
theorem searchGo_weak {m : Mem} {f su : Nat} {S : List Nat}
    (hcyc : CycNext m S) :
    ∀ (fuel : Nat) {prev curr : Nat} (mind : Nat)
      (best : Option (Nat × Nat)), prev ∈ S → (m prev).next = curr →
    (∀ b bp, best = some (b, bp) → b ∈ S ∧ su ≤ (m b).size ∧
      (m b).size ≠ su ∧ bp ∈ S ∧ (m bp).next = b) →
    (match searchGo m f su fuel prev curr mind best with
     | .out => True
     | .exact p c => c ∈ S ∧ (m c).size = su ∧ p ∈ S ∧ (m p).next = c
     | .carve b bp => b ∈ S ∧ su ≤ (m b).size ∧ (m b).size ≠ su ∧
         bp ∈ S ∧ (m bp).next = b
     | .miss => True) := by
  intro fuel
  induction fuel with
  | zero => intro prev curr mind best _ _ _; trivial
  | succ k ih =>
    intro prev curr mind best hprev hnx hinv
    have hcurr : curr ∈ S := hnx ▸ cycNext_mem hcyc hprev
    by_cases hex : (m curr).size = su
    · rw [searchGo_exact _ _ _ _ _ _ _ _ hex]
      exact ⟨hcurr, hex, hprev, hnx⟩
    · by_cases hcf : curr = f
      · subst hcf
        rw [searchGo_last _ _ _ _ _ _ _ hex]
        by_cases hup : su ≤ (m curr).size ∧ (m curr).size - su < mind
        · rw [if_pos hup]
          exact ⟨hcurr, hup.1, hex, hprev, hnx⟩
        · rw [if_neg hup]
          cases hbe : best with
          | none => trivial
          | some pr =>
            obtain ⟨b, bp⟩ := pr
            exact hinv b bp hbe
      · rw [searchGo_cont _ _ _ _ _ _ _ _ hex hcf]
        by_cases hup : su ≤ (m curr).size ∧ (m curr).size - su < mind
        · rw [if_pos hup]
          exact ih _ _ hcurr rfl
            (fun b bp hbe => by
              cases hbe
              exact ⟨hcurr, hup.1, hex, hprev, hnx⟩)
        · rw [if_neg hup]
          exact ih _ _ hcurr rfl hinv

/-- Weak soundness of the full search lap, valid for any fuel. -/
theorem search_weak {m : Mem} {f su : Nat} {S : List Nat}
    (hcyc : CycNext m S) (hf : f ∈ S) (fuel : Nat) :
    (match search m f su fuel with
     | .out => True
     | .exact p c => c ∈ S ∧ (m c).size = su ∧ p ∈ S ∧ (m p).next = c
     | .carve b bp => b ∈ S ∧ su ≤ (m b).size ∧ (m b).size ≠ su ∧
         bp ∈ S ∧ (m bp).next = b
     | .miss => True) := by
  unfold search
  exact searchGo_weak hcyc fuel UINT_MAXn none hf rfl
    (fun b bp hbe => by cases hbe)

/-- In a sorted cyclically realized list, the node a member points at is
either its chain successor or — when the member is the top node — the
head. -/
theorem next_pred_char {m : Mem} {S : List Nat} (hcyc : CycNext m S)
    {p c : Nat} (hp : p ∈ S) (hnx : (m p).next = c) :
    (∃ X Y, S = X ++ p :: c :: Y) ∨ (∃ X, S = X ++ [p] ∧ c = S.headD 0) := by
  obtain ⟨X, Y, hS⟩ := List.append_of_mem hp
  cases hY : Y with
  | nil =>
    subst hY
    right
    refine ⟨X, hS, ?_⟩
    rw [← hnx, cycNext_last hcyc hS]
  | cons y Y' =>
    subst hY
    left
    have h1 : (m p).next = y := cycNext_pair hcyc hS
    rw [hnx] at h1
    subst h1
    exact ⟨X, Y', hS⟩

/-- Unlinking an exact-fit node preserves well-formedness: with `c` the
node pointed at by `p`, the write `p->next = c->next` leaves a
well-formed arena entered at `p`. -/
theorem exact_unlink_wf {m : Mem} {brk : Nat} {S : List Nat}
    (hwfc : WFc m brk S) {p c : Nat} (hp : p ∈ S)
    (hnx : (m p).next = c) :
    ∃ S', p ∈ S' ∧ WFc (updNext m p ((m c).next)) brk S' := by
  obtain ⟨hne, hsort, hcyc, hnc, hbnd⟩ := hwfc
  set m2 := updNext m p ((m c).next) with hm2
  have hfr : ∀ a, a ≠ p → m2 a = m a := by
    intro a h1
    simp [hm2, updNext_apply, h1]
  have hsz : ∀ a, (m2 a).size = (m a).size := by
    intro a
    by_cases h1 : a = p
    · subst h1; simp [hm2, updNext_apply]
    · simp [hm2, updNext_apply, h1]
  have htid : ∀ a, (m2 a).tid = (m a).tid := by
    intro a
    by_cases h1 : a = p
    · subst h1; simp [hm2, updNext_apply]
    · simp [hm2, updNext_apply, h1]
  rcases next_pred_char hcyc hp hnx with ⟨X, Y, hS⟩ | ⟨X, hS, hc⟩
  · -- c is the chain successor of p
    subst hS
    have hsX := (chain'_break_at X p (c :: Y)).mp hsort
    have hXp : ∀ a ∈ X, a < p := sorted_concat_lt hsX.1
    have hpc : p < c := (List.chain'_cons.mp hsX.2).1
    have hcY : List.Chain' (· < ·) (c :: Y) := (List.chain'_cons.mp hsX.2).2
    have hncpc : p + (m p).size < c :=
      (List.chain'_cons.mp ((chain'_break_at X p (c :: Y)).mp hnc).2).1
    cases Y with
    | nil =>
      -- c is the top node; p becomes the new top
      have hcl : (m c).next = (X ++ p :: c :: []).headD 0 :=
        cycNext_last hcyc (show X ++ p :: c :: [] = (X ++ [p]) ++ [c]
          from by simp)
      refine ⟨X ++ [p], by simp, by simp, hsX.1, ⟨?_, ?_⟩, ?_, ?_⟩
      · refine chain'_mono_dropLast _
          ((chain'_break_at X p (c :: [])).mp hcyc.1).1 ?_
        intro a ha b hR
        rw [List.dropLast_concat] at ha
        have h1 := hXp a ha
        show (m2 a).next = b
        rw [hfr a (by omega)]
        exact hR
      · rw [List.getLastD_concat]
        show (m2 p).next = (X ++ [p]).headD 0
        have : m2 p = ⟨(m c).next, (m p).size, (m p).tid⟩ := by
          simp [hm2, updNext_apply]
        rw [this]
        show (m c).next = (X ++ [p]).headD 0
        rw [hcl]
        exact (headD_append_cons_eq X p [] [c]).symm
      · refine chain'_mono_dropLast _
          ((chain'_break_at X p (c :: [])).mp hnc).1 ?_
        intro a ha b hR
        rw [List.dropLast_concat] at ha
        show a + (m2 a).size < b
        rw [hsz]
        exact hR
      · intro a ha
        rw [hsz]
        exact hbnd a (by simp at ha ⊢; tauto)
    | cons y Y' =>
      -- interior unlink: p now points at y
      have hcy : (m c).next = y := cycNext_pair hcyc
        (show X ++ p :: c :: y :: Y' = (X ++ [p]) ++ c :: y :: Y' by simp)
      have hyY : List.Chain' (· < ·) (y :: Y') :=
        (List.chain'_cons.mp hcY).2
      have hcyl : c < y := (List.chain'_cons.mp hcY).1
      refine ⟨X ++ p :: y :: Y', by simp, by simp, ?_, ⟨?_, ?_⟩, ?_, ?_⟩
      · rw [chain'_break_at X p (y :: Y')]
        exact ⟨hsX.1, List.chain'_cons.mpr ⟨by omega, hyY⟩⟩
      · rw [chain'_break_at X p (y :: Y')]
        constructor
        · refine chain'_mono_dropLast _
            ((chain'_break_at X p (c :: y :: Y')).mp hcyc.1).1 ?_
          intro a ha b hR
          rw [List.dropLast_concat] at ha
          have h1 := hXp a ha
          show (m2 a).next = b
          rw [hfr a (by omega)]
          exact hR
        · refine List.chain'_cons.mpr ⟨?_, ?_⟩
          · show (m2 p).next = y
            have : m2 p = ⟨(m c).next, (m p).size, (m p).tid⟩ := by
              simp [hm2, updNext_apply]
            rw [this]
            exact hcy
          · have hold : List.Chain' (fun a b => (m a).next = b) (y :: Y') :=
              (List.chain'_cons.mp (List.chain'_cons.mp
                ((chain'_break_at X p (c :: y :: Y')).mp hcyc.1).2).2).2
            refine chain'_mono_dropLast _ hold ?_
            intro a ha b hR
            have h3 : y ≤ a :=
              sorted_head_le hyY (List.mem_of_mem_dropLast ha)
            show (m2 a).next = b
            rw [hfr a (by omega)]
            exact hR
      · have hLs' : (X ++ p :: y :: Y').getLastD 0 = (y :: Y').getLastD 0 := by
          rw [show X ++ p :: y :: Y' = (X ++ [p]) ++ (y :: Y') by simp,
            getLastD_append_ne _ _ (by simp)]
        have hLs : (X ++ p :: c :: y :: Y').getLastD 0 =
            (y :: Y').getLastD 0 := by
          rw [show X ++ p :: c :: y :: Y' = (X ++ [p, c]) ++ (y :: Y')
            by simp, getLastD_append_ne _ _ (by simp)]
        have hL : y ≤ (y :: Y').getLastD 0 :=
          sorted_head_le hyY (getLastD_mem (by simp))
        rw [hLs', headD_append_cons_eq X p (y :: Y') (c :: y :: Y'),
          hfr _ (by omega), ← hLs]
        exact hcyc.2
      · rw [chain'_break_at X p (y :: Y')]
        constructor
        · refine chain'_mono_dropLast _
            ((chain'_break_at X p (c :: y :: Y')).mp hnc).1 ?_
          intro a ha b hR
          rw [List.dropLast_concat] at ha
          show a + (m2 a).size < b
          rw [hsz]
          exact hR
        · refine List.chain'_cons.mpr ⟨?_, ?_⟩
          · show p + (m2 p).size < y
            rw [hsz]
            omega
          · have hold : List.Chain' (fun a b => a + (m a).size < b)
                (y :: Y') :=
              (List.chain'_cons.mp (List.chain'_cons.mp
                ((chain'_break_at X p (c :: y :: Y')).mp hnc).2).2).2
            refine chain'_mono_dropLast _ hold ?_
            intro a ha b hR
            show a + (m2 a).size < b
            rw [hsz]
            exact hR
      · intro a ha
        rw [hsz]
        refine hbnd a ?_
        simp at ha ⊢
        tauto
  · -- p is the top node and c the head: the head is unlinked
    subst hS
    cases X with
    | nil =>
      -- singleton arena: the write is the identity
      have hme : m2 = m := by
        funext a
        by_cases h1 : a = p
        · have hcp : c = p := by simpa using hc
          rw [h1, hm2, hcp]
          show (updNext m p ((m p).next)) p = m p
          simp [updNext_apply]
        · exact hfr a h1
      rw [hme]
      exact ⟨[p], by simp, by simp, hsort, hcyc, hnc, hbnd⟩
    | cons x0 X' =>
      have hcx : c = x0 := by simpa using hc
      subst hcx
      have htail : List.Chain' (· < ·) (X' ++ [p]) :=
        (List.chain'_cons'.mp hsort).2
      have hXp : ∀ a ∈ X', a < p := sorted_concat_lt htail
      have hx0 : ∀ a ∈ X' ++ [p], c < a :=
        sorted_cons_lt (show List.Chain' (· < ·) (c :: (X' ++ [p]))
          from hsort)
      have hnx0 : (m c).next = (X' ++ [p]).headD 0 := by
        cases X' with
        | nil =>
          have h1 : (m c).next = p := cycNext_pair hcyc
            (show c :: ([] : List Nat) ++ [p] = [] ++ c :: p :: [] by simp)
          rw [h1]
          rfl
        | cons x1 X'' =>
          have h1 : (m c).next = x1 := cycNext_pair hcyc
            (show c :: (x1 :: X'') ++ [p] = [] ++ c :: x1 :: (X'' ++ [p])
              by simp)
          rw [h1]
          rfl
      refine ⟨X' ++ [p], by simp, by simp, htail, ⟨?_, ?_⟩, ?_, ?_⟩
      · refine chain'_mono_dropLast _
          (List.chain'_cons'.mp hcyc.1).2 ?_
        intro a ha b hR
        rw [List.dropLast_concat] at ha
        have h1 := hXp a ha
        show (m2 a).next = b
        rw [hfr a (by omega)]
        exact hR
      · rw [List.getLastD_concat]
        show (m2 p).next = (X' ++ [p]).headD 0
        have : m2 p = ⟨(m c).next, (m p).size, (m p).tid⟩ := by
          simp [hm2, updNext_apply]
        rw [this]
        exact hnx0
      · refine chain'_mono_dropLast _ (List.chain'_cons'.mp hnc).2 ?_
        intro a ha b hR
        show a + (m2 a).size < b
        rw [hsz]
        exact hR
      · intro a ha
        rw [hsz]
        refine hbnd a ?_
        simp at ha ⊢
        tauto

/-- Carving a non-exact best-fit block preserves well-formedness on the
same node list: only the shrunk size of the low block and the size of the
new header — at an address that is not a list node — are written. -/
theorem carve_wf {m : Mem} {brk su : Nat} {S : List Nat}
    (hwfc : WFc m brk S) {b : Nat} (hb : b ∈ S)
    (hsu : su ≤ (m b).size) (hex : (m b).size ≠ su) (hsu1 : 1 ≤ su) :
    WFc (processBlock m b su).2 brk S := by
  obtain ⟨hne, hsort, hcyc, hnc, hbnd⟩ := hwfc
  have hm2e : (processBlock m b su).2 =
      updSize (updSize m b ((m b).size - su)) (b + ((m b).size - su)) su :=
    rfl
  rw [hm2e]
  set m2 := updSize (updSize m b ((m b).size - su))
    (b + ((m b).size - su)) su with hm2
  have hbw : b ≠ b + ((m b).size - su) := by omega
  have hwS : ∀ a ∈ S, a ≠ b + ((m b).size - su) := by
    intro a ha
    have hsort' := hsort
    have hnc' := hnc
    obtain ⟨X, T, hS⟩ := List.append_of_mem hb
    rw [hS] at ha hsort' hnc'
    have hXb : ∀ x ∈ X, x < b :=
      sorted_concat_lt ((chain'_break_at X b T).mp hsort').1
    simp only [List.mem_append, List.mem_cons] at ha
    rcases ha with ha | ha | ha
    · have := hXb a ha
      omega
    · omega
    · cases T with
      | nil => simp at ha
      | cons t T' =>
        have h1 : b + (m b).size < t :=
          (List.chain'_cons.mp
            ((chain'_break_at X b (t :: T')).mp hnc').2).1
        have h2 : t ≤ a := sorted_head_le
          (List.chain'_cons.mp
            ((chain'_break_at X b (t :: T')).mp hsort').2).2 ha
        omega
  have hfrn : ∀ a, (m2 a).next = (m a).next := by
    have h1 : ∀ (mm : Mem) (x v a : Nat),
        ((updSize mm x v) a).next = (mm a).next := by
      intro mm x v a
      by_cases h : a = x
      · rw [h]; simp [updSize_apply]
      · simp [updSize_apply, h]
    intro a
    rw [hm2, h1, h1]
  have hszfr : ∀ a, a ≠ b → a ≠ b + ((m b).size - su) →
      (m2 a).size = (m a).size := by
    intro a h1 h2
    simp [hm2, updSize_apply, h1, h2]
  have hszb : (m2 b).size = (m b).size - su := by
    simp [hm2, updSize_apply, hbw]
  refine ⟨hne, hsort, ⟨?_, ?_⟩, ?_, ?_⟩
  · exact hcyc.1.imp (fun a b h => by rw [hfrn]; exact h)
  · rw [hfrn]
    exact hcyc.2
  · refine chain'_mono_dropLast _ hnc ?_
    intro a ha b' hR
    have haS : a ∈ S := List.mem_of_mem_dropLast ha
    have hne2 := hwS a haS
    by_cases h1 : a = b
    · rw [h1, hszb]
      rw [h1] at hR
      omega
    · rw [hszfr a h1 hne2]
      exact hR
  · intro a ha
    have hne2 := hwS a ha
    by_cases h1 : a = b
    · rw [h1, hszb]
      have h2 := hbnd b hb
      omega
    · rw [hszfr a h1 hne2]
      exact hbnd a ha

/-- OS growth preserves well-formedness: the grown state either keeps the
arena untouched (fuel-out or `sbrk` failure) or inserts the freshly
stamped region — which satisfies the free contract above the old break —
into the list. -/
theorem malloc_sys_wf {self u fuel : Nat} {st : St} {S : List Nat} {f : Nat}
    (hfl : st.fl = some f) (hwf : WF st.mem f st.brk S) (hu : 1 ≤ u) :
    (malloc_sys self u fuel st = .out) ∨
    (∃ stf, malloc_sys self u fuel st = .fail stf ∧ stf.mem = st.mem ∧
      stf.fl = st.fl ∧ stf.brk = st.brk) ∨
    (∃ st2 S2 f2, malloc_sys self u fuel st = .ok st2 ∧ st2.fl = some f2 ∧
      WF st2.mem f2 st2.brk S2) := by
  obtain ⟨hf, hne, hsort, hcyc, hnc, hbnd⟩ := hwf
  by_cases hlim : st.limit < st.brk + u
  · right; left
    refine ⟨{ st with growthReqs := st.growthReqs ++ [u] }, ?_, rfl, rfl, rfl⟩
    simp [malloc_sys, hlim]
  · set m1 := updTid (updSize st.mem st.brk u) st.brk self with hm1
    have hfr : ∀ a, a ≠ st.brk → m1 a = st.mem a := by
      intro a h
      simp [hm1, updTid_apply, updSize_apply, h]
    have hm1b : m1 st.brk = ⟨(st.mem st.brk).next, u, self⟩ := by
      simp [hm1, updTid_apply, updSize_apply]
    have hwfc1 : WFc m1 (st.brk + u) S := by
      refine ⟨hne, hsort, ⟨?_, ?_⟩, ?_, ?_⟩
      · refine chain'_mono_dropLast _ hcyc.1 ?_
        intro a ha b hR
        have h1 := (hbnd a (List.mem_of_mem_dropLast ha)).1
        show (m1 a).next = b
        rw [hfr a (by omega)]
        exact hR
      · have h1 := (hbnd _ (getLastD_mem hne)).1
        rw [hfr _ (by omega)]
        exact hcyc.2
      · refine chain'_mono_dropLast _ hnc ?_
        intro a ha b hR
        have h1 := (hbnd a (List.mem_of_mem_dropLast ha)).1
        show a + (m1 a).size < b
        rw [hfr a (by omega)]
        exact hR
      · intro a ha
        have h1 := hbnd a ha
        rw [hfr a (by omega)]
        omega
    have hfo1 : FreeOK m1 (st.brk + u) S st.brk := by
      refine ⟨?_, ?_, ?_, ?_, ?_⟩
      · rw [hm1b]
        exact hu
      · intro hmem
        have := (hbnd _ hmem).1
        omega
      · have := (hbnd _ (headD_mem hne)).1
        omega
      · rw [hm1b]
      · intro a ha
        right
        have h1 := hbnd a ha
        rw [hfr a (by omega)]
        omega
    cases hins : insert_free_list self (st.brk + 1) f m1 fuel with
    | out =>
      left
      simp [malloc_sys, hfl, hlim, ← hm1, hins]
    | unchanged =>
      right; right
      refine ⟨St.mk m1 st.fl (st.brk + u) st.limit
        (st.growthReqs ++ [u]), S, f, ?_, hfl, hf, hwfc1⟩
      simp [malloc_sys, hfl, hlim, ← hm1, hins]
    | done m2 f2 =>
      right; right
      have hfo1' : FreeOK m1 (st.brk + u) S (st.brk + 1 - 1) := by
        simpa using hfo1
      obtain ⟨S', hf2, hwfc'⟩ := insert_done_wf hf hwfc1 hfo1' hins
      refine ⟨St.mk m2 (some f2) (st.brk + u) st.limit
        (st.growthReqs ++ [u]), S', f2, ?_, rfl, hf2, hwfc'⟩
      simp [malloc_sys, hfl, hlim, ← hm1, hins]

/-- The allocator preserves well-formedness for any fuel: every return
path of `my_malloc` leaves a well-formed arena entered at the new list
head. -/
theorem my_malloc_wf {self baseA n : Nat} :
    ∀ (fuel : Nat) {st : St} {S : List Nat} {f : Nat},
      st.fl = some f → WF st.mem f st.brk S →
      ∃ S' f', (my_malloc self baseA n fuel st).2.fl = some f' ∧
        WF (my_malloc self baseA n fuel st).2.mem f'
          (my_malloc self baseA n fuel st).2.brk S' := by
  intro fuel
  induction fuel with
  | zero => intro st S f hfl hwf; exact ⟨S, f, hfl, hwf⟩
  | succ k ih =>
    intro st S f hfl hwf
    cases hs : search st.mem f (sunits n) (k + 1) with
    | out =>
      have hred : my_malloc self baseA n (k + 1) st = (.out, st) := by
        simp [my_malloc, hfl, hs]
      rw [hred]
      exact ⟨S, f, hfl, hwf⟩
    | exact prev curr =>
      rw [my_malloc_exact_step self baseA n k st f prev curr hfl hs]
      have hsound := @search_weak st.mem f (sunits n) S hwf.2.2.2.1
        hwf.1 (k + 1)
      rw [hs] at hsound
      obtain ⟨hc, hcs, hp, hnx⟩ := hsound
      obtain ⟨S', hpS', hwfc'⟩ := exact_unlink_wf hwf.2 hp hnx
      exact ⟨S', prev, rfl, hpS', hwfc'⟩
    | carve b bp =>
      rw [my_malloc_carve_step self baseA n k st f b bp hfl hs]
      have hsound := @search_weak st.mem f (sunits n) S hwf.2.2.2.1
        hwf.1 (k + 1)
      rw [hs] at hsound
      obtain ⟨hbS, hsu, hex, hbp, hnx⟩ := hsound
      have hwfc' := carve_wf hwf.2 hbS hsu hex (sunits_pos n)
      exact ⟨S, bp, rfl, hbp, hwfc'⟩
    | miss =>
      rcases @malloc_sys_wf self (sunits n) (k + 1) st S f hfl hwf
          (sunits_pos n) with
        hout | ⟨stf, hfail, hm, hf2, hb⟩ | ⟨st2, S2, f2, hok, hfl2, hwf2⟩
      · have hred : my_malloc self baseA n (k + 1) st = (.out, st) := by
          simp [my_malloc, hfl, hs, hout]
        rw [hred]
        exact ⟨S, f, hfl, hwf⟩
      · rw [my_malloc_fail_step self baseA n k st stf f hfl hs hfail]
        refine ⟨S, f, ?_, ?_⟩
        · show stf.fl = some f
          rw [hf2, hfl]
        · show WF stf.mem f stf.brk S
          rw [hm, hb]
          exact hwf
      · rw [my_malloc_miss_step self baseA n k st st2 f hfl hs hok]
        exact ih hfl2 hwf2

/-- Claim C8: after every public operation on a well-formed arena, the
arena is again well-formed and in particular every pair of consecutive
free-list nodes `a` and `b = a.next` that is not the wrap pair satisfies
`a + a.size < b` — no two adjacent free blocks are contiguous. -/
theorem c8_noncontiguity_invariant (self fuel : Nat) (op : PubOp) (st : St)
    (S : List Nat) (f : Nat) (hfl : st.fl = some f)
    (hwf : WF st.mem f st.brk S) (hok : OpOK self st S op) :
    ∃ S' f', (applyOp self fuel op st).fl = some f' ∧
      WF (applyOp self fuel op st).mem f' (applyOp self fuel op st).brk S' ∧
      S'.Chain' (fun a b =>
        a + ((applyOp self fuel op st).mem a).size < b) := by
  cases op with
  | allocL n =>
    obtain ⟨S', f', h1, h2⟩ := @my_malloc_wf self baseAddr n fuel st S f hfl hwf
    exact ⟨S', f', h1, h2, h2.2.2.2.2.1⟩
  | freeL p =>
    obtain ⟨S', f', h1, h2⟩ := ts_free_lock_wf hfl hwf hok
    exact ⟨S', f', h1, h2, h2.2.2.2.2.1⟩
  | allocN n =>
    obtain ⟨S', f', h1, h2⟩ := @my_malloc_wf self tlsBaseAddr n fuel st S f hfl hwf
    exact ⟨S', f', h1, h2, h2.2.2.2.2.1⟩
  | freeN p =>
    obtain ⟨S', f', h1, h2⟩ := ts_free_nolock_wf hfl hwf hok
    exact ⟨S', f', h1, h2, h2.2.2.2.2.1⟩

/-- Witness for C8: freeing the valid block at payload `1004` of the
concrete arena `stW` on its owning thread. -/
theorem c8_noncontiguity_invariant_witness :
    WF stW.mem 16 stW.brk [16, 1000] ∧
    (∃ S' f', (applyOp 1 5 (.freeL 1004) stW).fl = some f' ∧
      WF (applyOp 1 5 (.freeL 1004) stW).mem f'
        (applyOp 1 5 (.freeL 1004) stW).brk S' ∧
      S'.Chain' (fun a b =>
        a + ((applyOp 1 5 (.freeL 1004) stW).mem a).size < b)) :=
  ⟨WF_pair (by decide) (by decide) (by decide) (by decide) (by decide)
      (by decide) (by decide),
   c8_noncontiguity_invariant 1 5 (.freeL 1004) stW [16, 1000] 16 rfl
     (WF_pair (by decide) (by decide) (by decide) (by decide) (by decide)
       (by decide) (by decide))
     (fun _ => ⟨by decide, by decide, by decide, by decide, by decide⟩)⟩

end TsMalloc
